import Mathlib

/-!
Verification of the Kraken trading bot (`src/bot.py`, `src/strategy.py`,
`src/exchange_api.py`) against its natural-language specification.

The Python code is shallowly embedded: pure computations become Lean
functions over `ℚ` (exact rational arithmetic stands in for Python/pandas
floats; pandas NaN/inf propagation is modelled explicitly by the `PFloat`
type), Python `int` counters become `ℤ`, stateful methods become explicit
state-passing functions, and statements that raise become `Except` values.
-/

namespace KrakenBot

/-! ## Exchange protocol client (`exchange_api.py`) -/

/-- Embedding of `KrakenNonceManager.get_nonce` (exchange_api.py:59-65).
Input: the current clock reading `int(time.time() * 1000)` and the stored
`last_nonce`; output: the issued nonce and the new `last_nonce`.
(The Python method returns `str(nonce)`; the string conversion is
value-preserving and is omitted.) -/
def get_nonce (clockMs lastNonce : ℕ) : ℕ × ℕ :=
  let nonce := clockMs
  let nonce := if nonce ≤ lastNonce then lastNonce + 1 else nonce
  (nonce, nonce)

/-- The sequence of nonces issued by successive `get_nonce` calls, one per
clock reading, threading `last_nonce` (initially 0 in `__init__`). -/
def nonce_sequence (lastNonce : ℕ) : List ℕ → List ℕ
  | [] => []
  | c :: cs =>
    let p := get_nonce c lastNonce
    p.1 :: nonce_sequence p.2 cs

/-- The alias table of `_convert_symbol_to_kraken` (exchange_api.py:113-117). -/
def kraken_map (s : String) : String :=
  if s = "BTC" then "XBT"
  else if s = "USDT" then "USD"
  else if s = "USDC" then "USD"
  else s

/-- Python's `str.split(sep)` for a single-character separator, on the
character list of the string. -/
def splitOnChar (sep : Char) : List Char → List (List Char)
  | [] => [[]]
  | c :: rest =>
      match splitOnChar sep rest with
      | h :: t => if c = sep then [] :: h :: t else (c :: h) :: t
      | [] => [[]]

/-- Embedding of `_convert_symbol_to_kraken` (exchange_api.py:108-122): split the
canonical pair at "/", alias both sides, concatenate.  `none` models the
`ValueError` Python raises when unpacking does not yield exactly two
parts. -/
def convert_symbol_to_kraken (symbol : String) : Option String :=
  match (splitOnChar '/' symbol.data).map String.mk with
  | [base, quote] => some (kraken_map base ++ kraken_map quote)
  | _ => none

/-- The reverse currency-key mapping applied to each balance key in
`get_balance` (exchange_api.py:283-289): strip a leading `Z`
(`currency.startswith('Z')` then `currency[1:]`), map `XXBT` to `BTC`,
otherwise keep the key. -/
def convert_kraken_currency (currency : String) : String :=
  match currency.data with
  | 'Z' :: rest => String.mk rest
  | _ => if currency = "XXBT" then "BTC" else currency

/-! Error classification inside `_make_request` (exchange_api.py:224-253). -/

/-- Does `needle` occur contiguously at the head of `hay`? -/
def subAt : List Char → List Char → Bool
  | [], _ => true
  | _ :: _, [] => false
  | n :: ns, h :: hs => n = h && subAt ns hs

/-- Does `needle` occur contiguously anywhere in `hay`?  Models Python's
`needle in str(error_msg)`. -/
def containsSub : List Char → List Char → Bool
  | [], needle => needle.isEmpty
  | h :: hs, needle => subAt needle (h :: hs) || containsSub hs needle

/-- Python `needle in hay` on strings. -/
def strContains (hay needle : String) : Bool :=
  containsSub hay.data needle.data

inductive ErrClass where
  | invalidKey
  | invalidNonce
  | rateLimit
  | other
deriving DecidableEq

/-- The `if`/`elif` substring classification of a nonempty `error` field
(exchange_api.py:229-249), first match wins. -/
def classify_error (msg : String) : ErrClass :=
  if strContains msg ("EAPI:Invalid key") then .invalidKey
  else if strContains msg ("EAPI:Invalid nonce") then .invalidNonce
  else if strContains msg ("EAPI:Rate limit exceeded") then .rateLimit
  else .other

structure ReqState where
  lastNonce : ℕ
  lockoutUntil : ℚ
deriving DecidableEq

inductive ReqOutcome where
  | success
  | failure (msg : String)
deriving DecidableEq

structure ReqResult where
  outcome : ReqOutcome
  state : ReqState
  /-- the nonces issued by `get_nonce`, one per attempt, in order -/
  nonces : List ℕ
deriving DecidableEq

/-- The error-handling core of `_make_request` (exchange_api.py:156-253)
for a private (POST) call.  `responses attempt` is the `error` field of the
2xx body of the given attempt (`none` = empty error, the call returns its
result); `clocks attempt` is the millisecond clock read by the nonce
manager on that attempt; `now` is `time.time()` (seconds) used for
lockouts.  Each attempt stores a fresh nonce into `data["nonce"]`
(line 186).  An invalid-key error sets `lockout_until = now + 900` and the
call raises; an invalid-nonce error retries the same call while
`retry_count < 3` (lines 240-244) and raises after exhaustion; a
rate-limit error sets `lockout_until = now + 300` and raises; any other
error raises with the lockout unchanged. -/
def make_request (responses : ℕ → Option String) (clocks : ℕ → ℕ) (now : ℚ)
    (st : ReqState) (attempt : ℕ) (retry_count : ℕ) : ReqResult :=
  let p := get_nonce (clocks attempt) st.lastNonce
  let st := { st with lastNonce := p.2 }
  match responses attempt with
  | none => { outcome := .success, state := st, nonces := [p.1] }
  | some msg =>
    match classify_error msg with
    | .invalidKey =>
        { outcome := .failure msg, state := { st with lockoutUntil := now + 900 },
          nonces := [p.1] }
    | .invalidNonce =>
        if retry_count < 3 then
          let r := make_request responses clocks now st (attempt + 1) (retry_count + 1)
          { r with nonces := p.1 :: r.nonces }
        else
          { outcome := .failure msg, state := st, nonces := [p.1] }
    | .rateLimit =>
        { outcome := .failure msg, state := { st with lockoutUntil := now + 300 },
          nonces := [p.1] }
    | .other =>
        { outcome := .failure msg, state := st, nonces := [p.1] }
termination_by 3 - retry_count
decreasing_by omega

/-! ## Execution controller (`bot.py`) -/

/-- Python runtime errors raised by `_calculate_position_size`. -/
inductive PyErr where
  | typeError
  | zeroDivisionError
deriving DecidableEq

/-- Embedding of `_calculate_position_size` (bot.py:307-328).  Returns `0.0` when the
account balance is non-positive; otherwise computes
`min(balance * max_position_size, max_order_size_usd) / price` and then
executes `if 'BTC' in price:` — a string-membership test on the float
`price`, which raises `TypeError` (for `price = 0` the preceding division
already raises `ZeroDivisionError`). -/
def calculate_position_size (account_balance max_position_size max_order_size_usd
    price : ℚ) : Except PyErr ℚ :=
  if account_balance ≤ 0 then .ok 0
  else
    let maxPositionValue := account_balance * max_position_size
    let maxPositionValue := min maxPositionValue max_order_size_usd
    if price = 0 then .error .zeroDivisionError
    else
      let _positionSize := maxPositionValue / price
      .error .typeError

/-- Outcome of one `_execute_signal` attempt (bot.py:243-305). -/
inductive ExecOutcome where
  | skippedExistingPosition
  | raised (e : PyErr)
  | skippedBelowMinNotional
  | orderSubmitted (size : ℚ)
deriving DecidableEq

/-- Embedding of `_execute_signal` up to order submission (bot.py:243-272): skip when a
position already exists and `one_position_per_pair` is set; compute the
position size (a raise propagates out of the method — no order); skip when
`size * price < min_order_size_usd`; otherwise submit the order. -/
def execute_signal (one_position_per_pair hasPosition : Bool)
    (account_balance max_position_size max_order_size_usd min_order_size_usd
     price : ℚ) : ExecOutcome :=
  if one_position_per_pair && hasPosition then .skippedExistingPosition
  else
    match calculate_position_size account_balance max_position_size
        max_order_size_usd price with
    | .error e => .raised e
    | .ok position_size =>
      if position_size * price < min_order_size_usd then .skippedBelowMinNotional
      else .orderSubmitted position_size

/-- Modelled from the spec (§4.3, execution attempt), for comparison with
`calculate_position_size`: "compute order size as
min(balance·maxPositionFraction, maxOrderNotional)/price, floored to a
symbol-specific minimum lot". -/
def spec_position_size (balance maxPositionFraction maxOrderNotional minLot
    price : ℚ) : ℚ :=
  max (min (balance * maxPositionFraction) maxOrderNotional / price) minLot

/-! Dead-man's-switch and emergency liquidation. -/

structure EPosition where
  symbol : String
  side : String
  size : ℚ
deriving DecidableEq

structure EOrder where
  symbol : String
  side : String
  amount : ℚ
  orderType : String
deriving DecidableEq

/-- Embedding of `_emergency_close_all_positions` (bot.py:402-426): one opposite-side
market order per open position. -/
def emergency_close_all_positions (positions : List EPosition) : List EOrder :=
  positions.map fun p =>
    { symbol := p.symbol,
      side := if p.side = "long" then "sell" else "buy",
      amount := p.size,
      orderType := "market" }

/-- Embedding of `_check_dead_mans_switch` (bot.py:150-162): when enabled and
`now - last_heartbeat > timeout`, set `emergency_stop` and liquidate all
open positions; otherwise leave the flag and issue no orders. -/
def check_dead_mans_switch (enabled : Bool) (timeout now lastHeartbeat : ℚ)
    (emergencyStop : Bool) (positions : List EPosition) : Bool × List EOrder :=
  if enabled && decide (now - lastHeartbeat > timeout) then
    (true, emergency_close_all_positions positions)
  else
    (emergencyStop, [])

/-- The heartbeat/switch phase at the top of each `_main_loop` cycle
(bot.py:170-176): `update_heartbeat()` sets `last_heartbeat` to the
current time `tRefresh`, and immediately afterwards
`_check_dead_mans_switch()` runs at time `tCheck`.  Returns the new
`last_heartbeat`, the new `emergency_stop` flag, and the orders issued. -/
def cycle_switch_phase (enabled : Bool) (timeout tRefresh tCheck : ℚ)
    (_lastHeartbeat : ℚ) (emergencyStop : Bool) (positions : List EPosition) :
    ℚ × Bool × List EOrder :=
  let lastHeartbeat := tRefresh
  let r := check_dead_mans_switch enabled timeout tCheck lastHeartbeat
      emergencyStop positions
  (lastHeartbeat, r.1, r.2)

/-! ## Strategy engine (`strategy.py`): EMAs, buy/sell flags, counter logic -/

/-- One step of `Series.ewm(span, adjust=False).mean()`:
`y_t = (1 - α) * y_{t-1} + α * x_t` with `α = 2 / (span + 1)`. -/
def emaStep (α prev c : ℚ) : ℚ := (1 - α) * prev + α * c

/-- The tail of an EWM mean seeded at `prev`. -/
def emaFrom (α prev : ℚ) : List ℚ → List ℚ
  | [] => []
  | c :: cs => emaStep α prev c :: emaFrom α (emaStep α prev c) cs

/-- Embedding of `Series.ewm(span, adjust=False).mean()` over the close prices
(strategy.py:94-96): seeded by the first value. -/
def emaList (span : ℕ) (closes : List ℚ) : List ℚ :=
  match closes with
  | [] => []
  | c :: cs => c :: emaFrom (2 / (span + 1)) c cs

/-- The columns `df['buy'] = df['ema_fast'] > df['ema_slow']` and
`df['sell'] = df['ema_fast'] < df['ema_slow']` (strategy.py:99-100),
with the source's fixed periods `fast_ema_period = 12`,
`slow_ema_period = 25` (strategy.py:47-48). -/
def buy_sell_flags (closes : List ℚ) : List (Bool × Bool) :=
  List.zipWith (fun f s => (decide (f > s), decide (f < s)))
    (emaList 12 closes) (emaList 25 closes)

/-- One row produced by the `_calculate_counter_logic` loop
(strategy.py:136-166). -/
structure CRow where
  countBuy : ℤ
  countSell : ℤ
  buysignal : Bool
  sellsignal : Bool
  bull : Bool
  bear : Bool
deriving DecidableEq

/-- The two sequential `if`s updating the loop-local counters
(strategy.py:141-147): on `buy`, `countBuy += 1; countSell = 0`; on
`sell`, `countSell += 1; countBuy = 0`. -/
def counterStep (st : ℤ × ℤ) (f : Bool × Bool) : ℤ × ℤ :=
  let st := if f.1 then (st.1 + 1, 0) else st
  if f.2 then (0, st.2 + 1) else st

/-- The row written at one loop iteration (strategy.py:149-166): the
updated counters, the one-shot signals (only evaluated for `i > 0`, i.e.
when a previous candle `prev` exists), and the bull/bear flags. -/
def mkRow (st : ℤ × ℤ) (f : Bool × Bool) (prev : Option (Bool × Bool)) : CRow :=
  { countBuy := st.1
    countSell := st.2
    buysignal := match prev with
      | none => false
      | some pf =>
          decide (st.1 < 2) && decide (st.1 > 0) && decide (st.2 < 1) && f.1 && !pf.1
    sellsignal := match prev with
      | none => false
      | some pf =>
          decide (st.2 > 0) && decide (st.2 < 2) && decide (st.1 < 1) && f.2 && !pf.2
    bull := decide (st.1 > 1)
    bear := decide (st.2 > 1) }

/-- The `for i in range(len(df))` loop of `_calculate_counter_logic`
(strategy.py:136-166), carrying the loop-local counter state and the
previous candle's flags. -/
def counterRowsAux (st : ℤ × ℤ) (prev : Option (Bool × Bool)) :
    List (Bool × Bool) → List CRow
  | [] => []
  | f :: rest =>
      mkRow (counterStep st f) f prev ::
        counterRowsAux (counterStep st f) (some f) rest

/-- The rows of `_calculate_counter_logic` for a window: the loop starts
from `countBuy = 0, countSell = 0` (strategy.py:133-134) and from no
previous candle. -/
def counterRows (flags : List (Bool × Bool)) : List CRow :=
  counterRowsAux (0, 0) none flags

/-- The loop-local counter state after processing a list of flags. -/
def stateAfter (flags : List (Bool × Bool)) : ℤ × ℤ :=
  flags.foldl counterStep (0, 0)

/-- Embedding of `_calculate_counter_logic` (strategy.py:116-173) as a function of the
stored per-symbol counters and the candle window: the rows are computed by
the loop above (which initialises its local counters to zero, independent
of `stored`), and afterwards, when the window is nonempty, the stored
counters are overwritten with the last row's values (strategy.py:169-171). -/
def calculate_counter_logic (stored : ℤ × ℤ) (closes : List ℚ) :
    List CRow × (ℤ × ℤ) :=
  let rows := counterRows (buy_sell_flags closes)
  (rows,
    match rows.getLast? with
    | some r => (r.countBuy, r.countSell)
    | none => stored)

/-! ## Strategy engine: RSI and stochastic RSI (`strategy.py:175-201`)

pandas/numpy float semantics are modelled by `PFloat`: an exact rational,
`+inf`, `-inf`, or NaN.  Elementwise arithmetic propagates NaN; division
of a nonzero number by zero gives a signed infinity and `0/0` gives NaN,
as in numpy.  Rolling aggregations use `min_periods = window`, so a
window that is incomplete or contains NaN yields NaN. -/

inductive PFloat where
  | nan
  | inf
  | ninf
  | num (q : ℚ)
deriving DecidableEq

namespace PFloat

def add : PFloat → PFloat → PFloat
  | nan, _ => nan
  | _, nan => nan
  | inf, ninf => nan
  | ninf, inf => nan
  | inf, _ => inf
  | _, inf => inf
  | ninf, _ => ninf
  | _, ninf => ninf
  | num a, num b => num (a + b)

def sub : PFloat → PFloat → PFloat
  | nan, _ => nan
  | _, nan => nan
  | inf, inf => nan
  | ninf, ninf => nan
  | inf, _ => inf
  | _, inf => ninf
  | ninf, _ => ninf
  | _, ninf => inf
  | num a, num b => num (a - b)

def mul : PFloat → PFloat → PFloat
  | nan, _ => nan
  | _, nan => nan
  | inf, inf => inf
  | inf, ninf => ninf
  | ninf, inf => ninf
  | ninf, ninf => inf
  | inf, num b => if b = 0 then nan else if b > 0 then inf else ninf
  | num a, inf => if a = 0 then nan else if a > 0 then inf else ninf
  | ninf, num b => if b = 0 then nan else if b > 0 then ninf else inf
  | num a, ninf => if a = 0 then nan else if a > 0 then ninf else inf
  | num a, num b => num (a * b)

def div : PFloat → PFloat → PFloat
  | nan, _ => nan
  | _, nan => nan
  | inf, inf => nan
  | inf, ninf => nan
  | ninf, inf => nan
  | ninf, ninf => nan
  | inf, num b => if b < 0 then ninf else inf
  | ninf, num b => if b < 0 then inf else ninf
  | num _, inf => num 0
  | num _, ninf => num 0
  | num a, num b =>
      if b = 0 then (if a = 0 then nan else if a > 0 then inf else ninf)
      else num (a / b)

/-- Elementwise `> 0` comparison; NaN compares false. -/
def gtZero : PFloat → Bool
  | nan => false
  | inf => true
  | ninf => false
  | num a => decide (a > 0)

/-- Elementwise `< 0` comparison; NaN compares false. -/
def ltZero : PFloat → Bool
  | nan => false
  | inf => false
  | ninf => true
  | num a => decide (a < 0)

def neg : PFloat → PFloat
  | nan => nan
  | inf => ninf
  | ninf => inf
  | num a => num (-a)

/-- NaN-absorbing binary minimum (`ninf < num _ < inf`). -/
def min2 : PFloat → PFloat → PFloat
  | nan, _ => nan
  | _, nan => nan
  | ninf, _ => ninf
  | _, ninf => ninf
  | inf, y => y
  | x, inf => x
  | num a, num b => num (min a b)

/-- NaN-absorbing binary maximum. -/
def max2 : PFloat → PFloat → PFloat
  | nan, _ => nan
  | _, nan => nan
  | inf, _ => inf
  | _, inf => inf
  | ninf, y => y
  | x, ninf => x
  | num a, num b => num (max a b)

end PFloat

/-- Minimum of a nonempty list (NaN-absorbing); NaN on the empty list. -/
def minPL : List PFloat → PFloat
  | [] => .nan
  | [a] => a
  | a :: b :: t => PFloat.min2 a (minPL (b :: t))

/-- Maximum of a nonempty list (NaN-absorbing); NaN on the empty list. -/
def maxPL : List PFloat → PFloat
  | [] => .nan
  | [a] => a
  | a :: b :: t => PFloat.max2 a (maxPL (b :: t))

def sumP (l : List PFloat) : PFloat := l.foldr PFloat.add (.num 0)

/-- Mean of a window; NaN if the window contains NaN (pandas skips NaN but
then fails `min_periods`) and NaN on an empty window. -/
def meanP (l : List PFloat) : PFloat := PFloat.div (sumP l) (.num (l.length : ℚ))

/-- The length-`n` window of a rolling aggregation ending at index `i`. -/
def windowAt (l : List PFloat) (n i : ℕ) : List PFloat :=
  (l.drop (i + 1 - n)).take n

/-- Embedding of `Series.rolling(window=n).agg(f)`: NaN while fewer than `n`
observations are available, otherwise `f` of the length-`n` window ending
at the current index. -/
def rollingOp (f : List PFloat → PFloat) (n : ℕ) (l : List PFloat) : List PFloat :=
  (List.range l.length).map fun i =>
    if i + 1 < n then .nan else f (windowAt l n i)

/-- Embedding of `prices.diff()` (strategy.py:177): NaN at index 0, elementwise
difference afterwards. -/
def diffP (prices : List ℚ) : List PFloat :=
  match prices with
  | [] => []
  | _ :: _ =>
      .nan :: List.zipWith (fun a b => PFloat.num (b - a)) prices prices.tail

/-- The gains `delta.where(delta > 0, 0)` (strategy.py:178). -/
def gainList (prices : List ℚ) : List PFloat :=
  (diffP prices).map fun d => if d.gtZero then d else .num 0

/-- The losses `-delta.where(delta < 0, 0)` (strategy.py:179). -/
def lossList (prices : List ℚ) : List PFloat :=
  (diffP prices).map fun d => PFloat.neg (if d.ltZero then d else .num 0)

/-- The series `gain.rolling(window=period).mean()` from `_calculate_rsi`. -/
def gainMean (prices : List ℚ) (period : ℕ) : List PFloat :=
  rollingOp meanP period (gainList prices)

/-- The series `loss.rolling(window=period).mean()` from `_calculate_rsi`. -/
def lossMean (prices : List ℚ) (period : ℕ) : List PFloat :=
  rollingOp meanP period (lossList prices)

/-- Embedding of `_calculate_rsi` (strategy.py:175-182): `rs = gain / loss`,
`rsi = 100 - 100 / (1 + rs)` — a plain elementwise division, with no
special handling of a zero loss-mean. -/
def calculate_rsi (prices : List ℚ) (period : ℕ) : List PFloat :=
  let rs := List.zipWith PFloat.div (gainMean prices period) (lossMean prices period)
  rs.map fun r => PFloat.sub (.num 100) (PFloat.div (.num 100) (PFloat.add (.num 1) r))

/-- The series `rsi.rolling(window=stoch_length).min()` (strategy.py:188). -/
def rsiMinList (rsi : List PFloat) (stoch_length : ℕ) : List PFloat :=
  rollingOp minPL stoch_length rsi

/-- The series `rsi.rolling(window=stoch_length).max()` (strategy.py:189). -/
def rsiMaxList (rsi : List PFloat) (stoch_length : ℕ) : List PFloat :=
  rollingOp maxPL stoch_length rsi

/-- The series `denominator = (rsi_max - rsi_min).replace(0, 1)` (strategy.py:192-193):
exact zeros replaced by 1. -/
def stochDenom (rsi : List PFloat) (stoch_length : ℕ) : List PFloat :=
  (List.zipWith PFloat.sub (rsiMaxList rsi stoch_length)
      (rsiMinList rsi stoch_length)).map
    fun x => if x = .num 0 then .num 1 else x

/-- The series `stoch_rsi = 100 * (rsi - rsi_min) / denominator` (strategy.py:195). -/
def stochRsiList (rsi : List PFloat) (stoch_length : ℕ) : List PFloat :=
  List.zipWith PFloat.div
    (List.zipWith (fun r m => PFloat.mul (.num 100) (PFloat.sub r m))
      rsi (rsiMinList rsi stoch_length))
    (stochDenom rsi stoch_length)

/-- Embedding of `_calculate_stochastic_rsi` (strategy.py:184-201): rolling min/max of
the RSI, denominator `rsi_max - rsi_min` with exact zeros replaced by 1,
`stoch_rsi = 100 * (rsi - rsi_min) / denominator`, then SMA smoothing of
width `k_smooth` for %K and of width `d_smooth` over %K for %D. -/
def calculate_stochastic_rsi (rsi : List PFloat) (stoch_length k_smooth d_smooth : ℕ) :
    List PFloat × List PFloat :=
  let stochK := rollingOp meanP k_smooth (stochRsiList rsi stoch_length)
  let stochD := rollingOp meanP d_smooth stochK
  (stochK, stochD)

/-- The %K line for a price series with the source's fixed parameters
`stoch_rsi_length = 14`, `stoch_length = 14`, `stoch_k_smooth = 3`,
`stoch_d_smooth = 3` (strategy.py:52-55, 103-108). -/
def stochK (prices : List ℚ) : List PFloat :=
  (calculate_stochastic_rsi (calculate_rsi prices 14) 14 3 3).1

/-- The %D line with the source's fixed parameters. -/
def stochD (prices : List ℚ) : List PFloat :=
  (calculate_stochastic_rsi (calculate_rsi prices 14) 14 3 3).2

/-! ## Helper lemmas -/

theorem get_nonce_fst (c l : ℕ) : (get_nonce c l).1 = if c ≤ l then l + 1 else c := rfl

theorem get_nonce_snd_eq (c l : ℕ) : (get_nonce c l).2 = (get_nonce c l).1 := rfl

theorem lt_get_nonce (c l : ℕ) : l < (get_nonce c l).1 := by
  rw [get_nonce_fst]
  split <;> omega

theorem mem_nonce_sequence_gt :
    ∀ (cs : List ℕ) (l : ℕ), ∀ n ∈ nonce_sequence l cs, l < n := by
  intro cs
  induction cs with
  | nil => intro l n h; simp [nonce_sequence] at h
  | cons c cs ih =>
      intro l n h
      simp only [nonce_sequence, List.mem_cons] at h
      rcases h with h | h
      · exact h ▸ lt_get_nonce c l
      · have h2 := ih (get_nonce c l).2 n h
        calc l < (get_nonce c l).1 := lt_get_nonce c l
          _ = (get_nonce c l).2 := (get_nonce_snd_eq c l).symm
          _ < n := h2

/-! ## Claim theorems -/

/-- C5: every nonce returned by the nonce manager is strictly greater than
every previously returned nonce, for any sequence of millisecond clock
readings (in particular when the clock does not advance), and when the
clock has not advanced past the last issued value the nonce is the last
issued value plus one. -/
theorem C5_nonce_strictly_increasing :
    (∀ (clocks : List ℕ) (lastNonce : ℕ),
      List.Pairwise (· < ·) (nonce_sequence lastNonce clocks)) ∧
    (∀ c l : ℕ, c ≤ l → (get_nonce c l).1 = l + 1) := by
  constructor
  · intro clocks
    induction clocks with
    | nil => intro l; simp [nonce_sequence]
    | cons c cs ih =>
        intro l
        simp only [nonce_sequence, List.pairwise_cons]
        refine ⟨?_, ih _⟩
        intro n hn
        have := mem_nonce_sequence_gt cs (get_nonce c l).2 n hn
        rw [get_nonce_snd_eq] at this
        exact this
  · intro c l h
    rw [get_nonce_fst, if_pos h]

/-- C5 witness: concrete run with a stalled clock. -/
theorem C5_witness :
    List.Pairwise (· < ·) (nonce_sequence 0 [100, 100, 100, 50]) ∧
    (get_nonce 100 100).1 = 100 + 1 :=
  ⟨C5_nonce_strictly_increasing.1 [100, 100, 100, 50] 0,
   C5_nonce_strictly_increasing.2 100 100 (by decide)⟩

/-- C3 counterexample: the alias table maps BTC to XBT, but the balance
currency-key reverse mapping leaves XBT unchanged (it only recognises a
leading Z or the key XXBT), so the round trip does not recover BTC. -/
theorem C3_counterexample :
    kraken_map ("BTC") = "XBT" ∧
    convert_symbol_to_kraken ("BTC/USDT") = some ("XBTUSD") ∧
    convert_kraken_currency (kraken_map ("BTC")) = "XBT" ∧
    "XBT" ≠ "BTC" := by
  refine ⟨rfl, rfl, rfl, ?_⟩
  decide

/-- C3 (amended): for no entry of the alias table does forward conversion
followed by the balance reverse mapping recover the original: BTC maps to
XBT which maps back to XBT, and USDT and USDC both map to USD which maps
back to USD; the reverse mapping recovers canonical names only from the
venue's actual balance keys (XXBT and Z-prefixed keys). -/
theorem C3_alias_roundtrip_fails :
    convert_kraken_currency (kraken_map ("BTC")) ≠ "BTC" ∧
    convert_kraken_currency (kraken_map ("USDT")) ≠ "USDT" ∧
    convert_kraken_currency (kraken_map ("USDC")) ≠ "USDC" ∧
    convert_kraken_currency ("XXBT") = "BTC" ∧
    convert_kraken_currency ("ZUSD") = "USD" := by
  refine ⟨?_, ?_, ?_, rfl, rfl⟩ <;> decide

/-- C2 counterexample: at price 0 (and positive balance) the division in
`_calculate_position_size` raises `ZeroDivisionError` before the
`'BTC' in price` membership test is reached, so the raised error is not a
`TypeError` there. -/
theorem C2_counterexample :
    calculate_position_size 1000 (2/100) 10000 0 = .error .zeroDivisionError ∧
    calculate_position_size 1000 (2/100) 10000 0 ≠ .error .typeError := by
  constructor
  · rfl
  · intro h
    rw [show calculate_position_size 1000 (2/100) 10000 0
          = .error .zeroDivisionError from rfl] at h
    exact PyErr.noConfusion (Except.error.inj h)

/-- C2 (amended): for every positive balance `_calculate_position_size`
never returns a size — it raises a `TypeError` at the `'BTC' in price`
string-membership test for every nonzero price (and a `ZeroDivisionError`
at price 0) — so an `_execute_signal` attempt with positive balance never
reaches order submission; and it returns `0.0` exactly when the account
balance is less than or equal to zero. -/
theorem C2_no_size_for_positive_balance :
    ∀ (bal maxPos maxOrd minOrd price : ℚ) (one hasPos : Bool),
      (calculate_position_size bal maxPos maxOrd price = .ok 0 ↔ bal ≤ 0) ∧
      (0 < bal → price ≠ 0 →
        calculate_position_size bal maxPos maxOrd price = .error .typeError) ∧
      (0 < bal → ∀ s : ℚ,
        execute_signal one hasPos bal maxPos maxOrd minOrd price ≠
          .orderSubmitted s) := by
  intro bal maxPos maxOrd minOrd price one hasPos
  refine ⟨?_, ?_, ?_⟩
  · constructor
    · intro h
      by_contra hb
      rw [calculate_position_size, if_neg hb] at h
      split at h <;> exact Except.noConfusion h
    · intro h
      rw [calculate_position_size, if_pos h]
  · intro hb hp
    rw [calculate_position_size, if_neg (by linarith), if_neg hp]
  · intro hb s
    have hcalc : ∀ e, calculate_position_size bal maxPos maxOrd price = .error e →
        execute_signal one hasPos bal maxPos maxOrd minOrd price ≠
          .orderSubmitted s := by
      intro e he
      rw [execute_signal]
      split
      · exact fun h => ExecOutcome.noConfusion h
      · rw [he]
        exact fun h => ExecOutcome.noConfusion h
    by_cases hp : price = 0
    · refine hcalc .zeroDivisionError ?_
      rw [calculate_position_size, if_neg (by linarith), if_pos hp]
    · exact hcalc .typeError (by
        rw [calculate_position_size, if_neg (by linarith), if_neg hp])

/-- C2 witness: balance 1000, price 50000 (config defaults). -/
theorem C2_witness :
    (calculate_position_size 1000 (2/100) 10000 50000 = .ok 0 ↔ (1000 : ℚ) ≤ 0) ∧
    calculate_position_size 1000 (2/100) 10000 50000 = .error .typeError ∧
    execute_signal true false 1000 (2/100) 10000 10 50000 ≠
      .orderSubmitted (1/2500) :=
  ⟨(C2_no_size_for_positive_balance 1000 (2/100) 10000 10 50000 true false).1,
   (C2_no_size_for_positive_balance 1000 (2/100) 10000 10 50000 true false).2.1
     (by norm_num) (by norm_num),
   (C2_no_size_for_positive_balance 1000 (2/100) 10000 10 50000 true false).2.2
     (by norm_num) (1/2500)⟩

/-- C9: at the spec's example input (balance 1000, fraction 0.02,
price 50000, max order notional 10000, min notional 10) the code never
computes the claimed size: `_calculate_position_size` raises a `TypeError`
at the symbol-minimum step, `_execute_signal` therefore raises before both
the min-notional gate and order submission; the spec's sizing formula
itself would give size 1/2500 = 0.0004, whose notional 20 is not below the
minimum 10. -/
theorem C9_sizing_crashes_at_example :
    calculate_position_size 1000 (2/100) 10000 50000 = .error .typeError ∧
    execute_signal true false 1000 (2/100) 10000 10 50000 = .raised .typeError ∧
    spec_position_size 1000 (2/100) 10000 (1/10000) 50000 = 1/2500 ∧
    spec_position_size 1000 (2/100) 10000 (1/10000) 50000 * 50000 = 20 ∧
    ¬ ((20 : ℚ) < 10) := by
  refine ⟨rfl, rfl, ?_, ?_, by norm_num⟩
  · rw [spec_position_size]
    norm_num
  · rw [spec_position_size]
    norm_num

/-- C10: in the code's cycle, `update_heartbeat()` runs immediately before
`_check_dead_mans_switch()`, so whenever the check happens within the
timeout of the refresh (the two are adjacent statements) the switch never
observes pre-cycle staleness: the emergency flag is unchanged and no
liquidation order is issued, no matter how stale the heartbeat was before
the cycle.  In isolation, a check that does observe a stale heartbeat sets
the emergency stop and issues one opposite-side market order per open
position. -/
theorem C10_switch_never_fires_in_cycle :
    (∀ (enabled : Bool) (timeout tR tC lh : ℚ) (es : Bool)
        (ps : List EPosition),
      tC - tR ≤ timeout →
      cycle_switch_phase enabled timeout tR tC lh es ps = (tR, es, [])) ∧
    (∀ (timeout now lh : ℚ) (es : Bool) (ps : List EPosition),
      now - lh > timeout →
      check_dead_mans_switch true timeout now lh es ps =
        (true, ps.map fun p =>
          { symbol := p.symbol,
            side := if p.side = "long" then "sell" else "buy",
            amount := p.size,
            orderType := "market" })) := by
  constructor
  · intro enabled timeout tR tC lh es ps h
    rw [cycle_switch_phase, check_dead_mans_switch]
    rw [if_neg]
    simp only [Bool.and_eq_true, decide_eq_true_eq, not_and]
    intro _
    exact not_lt.mpr h
  · intro timeout now lh es ps h
    rw [check_dead_mans_switch, if_pos]
    · rfl
    · simp only [Bool.true_and, decide_eq_true_eq]
      exact h

/-- C10 witness: heartbeat one million seconds stale, timeout 3600. -/
theorem C10_witness :
    cycle_switch_phase true 3600 1000000 1000000 0 false
        [⟨"BTC/USDT", "long", 1⟩] = (1000000, false, []) ∧
    check_dead_mans_switch true 3600 1000000 0 false
        [⟨"BTC/USDT", "long", 1⟩] =
      (true, [⟨"BTC/USDT", "sell", 1, "market"⟩]) := by
  constructor
  · exact C10_switch_never_fires_in_cycle.1 true 3600 1000000 1000000 0 false
      [⟨"BTC/USDT", "long", 1⟩] (by norm_num)
  · have := C10_switch_never_fires_in_cycle.2 3600 1000000 0 false
      [⟨"BTC/USDT", "long", 1⟩] (by norm_num)
    rw [this]
    rfl

theorem make_request_invalidNonce_step (msg : String) (clocks : ℕ → ℕ) (now : ℚ)
    (st : ReqState) (attempt rc : ℕ) (h : classify_error msg = .invalidNonce)
    (hrc : rc < 3) :
    make_request (fun _ => some msg) clocks now st attempt rc =
      { make_request (fun _ => some msg) clocks now
          { st with lastNonce := (get_nonce (clocks attempt) st.lastNonce).2 }
          (attempt + 1) (rc + 1) with
        nonces := (get_nonce (clocks attempt) st.lastNonce).1 ::
          (make_request (fun _ => some msg) clocks now
            { st with lastNonce := (get_nonce (clocks attempt) st.lastNonce).2 }
            (attempt + 1) (rc + 1)).nonces } := by
  conv_lhs => rw [make_request]
  simp only [h, if_pos hrc]

theorem make_request_invalidNonce_exhausted (msg : String) (clocks : ℕ → ℕ)
    (now : ℚ) (st : ReqState) (attempt : ℕ)
    (h : classify_error msg = .invalidNonce) :
    make_request (fun _ => some msg) clocks now st attempt 3 =
      { outcome := .failure msg,
        state := { st with lastNonce := (get_nonce (clocks attempt) st.lastNonce).2 },
        nonces := [(get_nonce (clocks attempt) st.lastNonce).1] } := by
  conv_lhs => rw [make_request]
  simp only [h, if_neg (by omega : ¬ (3:ℕ) < 3)]

theorem make_request_invalidNonce_run (msg : String) (clocks : ℕ → ℕ) (now : ℚ)
    (h : classify_error msg = .invalidNonce) :
    ∀ (k rc : ℕ), rc + k = 3 → ∀ (attempt : ℕ) (st : ReqState),
      (make_request (fun _ => some msg) clocks now st attempt rc).outcome =
        .failure msg ∧
      (make_request (fun _ => some msg) clocks now st attempt rc).state.lockoutUntil =
        st.lockoutUntil ∧
      (make_request (fun _ => some msg) clocks now st attempt rc).nonces.length =
        k + 1 ∧
      (make_request (fun _ => some msg) clocks now st attempt rc).nonces.head? =
        some (get_nonce (clocks attempt) st.lastNonce).1 ∧
      List.Chain' (· < ·)
        (make_request (fun _ => some msg) clocks now st attempt rc).nonces := by
  intro k
  induction k with
  | zero =>
      intro rc hk attempt st
      obtain rfl : rc = 3 := by omega
      rw [make_request_invalidNonce_exhausted msg clocks now st attempt h]
      exact ⟨rfl, rfl, rfl, rfl, List.chain'_singleton _⟩
  | succ k ih =>
      intro rc hk attempt st
      have hrc : rc < 3 := by omega
      rw [make_request_invalidNonce_step msg clocks now st attempt rc h hrc]
      obtain ⟨h1, h2, h3, h4, h5⟩ := ih (rc + 1) (by omega) (attempt + 1)
        { st with lastNonce := (get_nonce (clocks attempt) st.lastNonce).2 }
      refine ⟨h1, h2, by simp [h3], rfl, ?_⟩
      rw [List.chain'_cons']
      refine ⟨?_, h5⟩
      intro b hb
      rw [h4] at hb
      simp only [Option.mem_def, Option.some.injEq] at hb
      subst hb
      have := lt_get_nonce (clocks (attempt + 1))
        (get_nonce (clocks attempt) st.lastNonce).2
      rw [← get_nonce_snd_eq]
      exact this

/-- C6: lockout/retry behaviour of `_make_request` on a 2xx body with a
non-empty error field.  An invalid-key class error sets a 15-minute
(900 s) lockout and the call fails without retry; an invalid-nonce class
error causes the same call to be retried up to 3 times (4 attempts in
total), a fresh, strictly larger nonce being issued on each attempt, and
the call fails after exhaustion with the lockout unchanged; a rate-limit
class error sets a 5-minute (300 s) lockout and the call fails without
retry; any other error fails the call without touching the lockout. -/
theorem C6_error_handling :
    (∀ (msg : String) (clocks : ℕ → ℕ) (now : ℚ) (st : ReqState),
      classify_error msg = .invalidKey →
      make_request (fun _ => some msg) clocks now st 0 0 =
        { outcome := .failure msg,
          state := { lastNonce := (get_nonce (clocks 0) st.lastNonce).1,
                     lockoutUntil := now + 900 },
          nonces := [(get_nonce (clocks 0) st.lastNonce).1] }) ∧
    (∀ (msg : String) (clocks : ℕ → ℕ) (now : ℚ) (st : ReqState),
      classify_error msg = .invalidNonce →
      (make_request (fun _ => some msg) clocks now st 0 0).outcome = .failure msg ∧
      (make_request (fun _ => some msg) clocks now st 0 0).nonces.length = 4 ∧
      List.Chain' (· < ·) (make_request (fun _ => some msg) clocks now st 0 0).nonces ∧
      (make_request (fun _ => some msg) clocks now st 0 0).state.lockoutUntil =
        st.lockoutUntil) ∧
    (∀ (msg : String) (clocks : ℕ → ℕ) (now : ℚ) (st : ReqState),
      classify_error msg = .rateLimit →
      make_request (fun _ => some msg) clocks now st 0 0 =
        { outcome := .failure msg,
          state := { lastNonce := (get_nonce (clocks 0) st.lastNonce).1,
                     lockoutUntil := now + 300 },
          nonces := [(get_nonce (clocks 0) st.lastNonce).1] }) ∧
    (∀ (msg : String) (clocks : ℕ → ℕ) (now : ℚ) (st : ReqState),
      classify_error msg = .other →
      make_request (fun _ => some msg) clocks now st 0 0 =
        { outcome := .failure msg,
          state := { lastNonce := (get_nonce (clocks 0) st.lastNonce).1,
                     lockoutUntil := st.lockoutUntil },
          nonces := [(get_nonce (clocks 0) st.lastNonce).1] }) := by
  refine ⟨?_, ?_, ?_, ?_⟩
  · intro msg clocks now st h
    simp only [make_request, h, get_nonce_snd_eq]
  · intro msg clocks now st h
    obtain ⟨h1, h2, h3, _, h5⟩ := make_request_invalidNonce_run msg clocks now h 3 0
      (by omega) 0 st
    exact ⟨h1, h3, h5, h2⟩
  · intro msg clocks now st h
    simp only [make_request, h, get_nonce_snd_eq]
  · intro msg clocks now st h
    simp only [make_request, h, get_nonce_snd_eq]

/-- C6 witness: the four concrete Kraken error strings. -/
theorem C6_witness :
    (make_request (fun _ => some ("EAPI:Invalid key")) (fun _ => 7) 2 ⟨0, 0⟩ 0 0).state.lockoutUntil
      = 2 + 900 ∧
    (make_request (fun _ => some ("EAPI:Invalid nonce")) (fun _ => 7) 2 ⟨0, 5⟩ 0 0).nonces.length
      = 4 ∧
    List.Chain' (· < ·)
      (make_request (fun _ => some ("EAPI:Invalid nonce")) (fun _ => 7) 2 ⟨0, 5⟩ 0 0).nonces ∧
    (make_request (fun _ => some ("EAPI:Rate limit exceeded")) (fun _ => 7) 2 ⟨0, 0⟩ 0 0).state.lockoutUntil
      = 2 + 300 ∧
    (make_request (fun _ => some ("EOrder:Insufficient funds")) (fun _ => 7) 2 ⟨0, 0⟩ 0 0).outcome
      = .failure ("EOrder:Insufficient funds") := by
  refine ⟨?_, ?_, ?_, ?_, ?_⟩
  · rw [C6_error_handling.1 ("EAPI:Invalid key") (fun _ => 7) 2 ⟨0, 0⟩ (by decide)]
  · exact (C6_error_handling.2.1 ("EAPI:Invalid nonce") (fun _ => 7) 2 ⟨0, 5⟩ (by decide)).2.1
  · exact (C6_error_handling.2.1 ("EAPI:Invalid nonce") (fun _ => 7) 2 ⟨0, 5⟩ (by decide)).2.2.1
  · rw [C6_error_handling.2.2.1 ("EAPI:Rate limit exceeded") (fun _ => 7) 2 ⟨0, 0⟩ (by decide)]
  · rw [C6_error_handling.2.2.2 ("EOrder:Insufficient funds") (fun _ => 7) 2 ⟨0, 0⟩ (by decide)]

/-- C1 counterexample: a first `updateMarketData` call on closes
`[100, 204, 300, 400]` leaves the stored counters at `(3, 0)`; a second
call on `[100, 204]` begins with a neutral candle (neither `buy` nor
`sell`, which leaves counters unchanged), yet its first row carries
`countBuy = 0`, not the stored 3 — the window is evaluated from
zero-initialised local counters, not from the stored values. -/
theorem C1_counterexample :
    (calculate_counter_logic (0, 0) [100, 204, 300, 400]).2 = (3, 0) ∧
    (buy_sell_flags [100, 204]).head? = some (false, false) ∧
    ((calculate_counter_logic (3, 0) [100, 204]).1.head?.map CRow.countBuy)
      = some 0 := by
  refine ⟨?_, ?_, ?_⟩ <;>
    norm_num [calculate_counter_logic, counterRows, counterRowsAux, counterStep,
      mkRow, buy_sell_flags, emaList, emaFrom, emaStep]

/-- C1 (amended): each `_calculate_counter_logic` call evaluates the
candle window with its loop-local counters reset to zero — the rows are
independent of the stored per-symbol counters, which are written but never
read — and after a call on a nonempty window the stored counters equal the
countBuy/countSell of the window's last candle. -/
theorem C1_counters_reset_per_call :
    ∀ (stored stored' : ℤ × ℤ) (closes : List ℚ) (r : CRow),
      (calculate_counter_logic stored closes).1 =
        (calculate_counter_logic stored' closes).1 ∧
      ((calculate_counter_logic stored closes).1.getLast? = some r →
        (calculate_counter_logic stored closes).2 = (r.countBuy, r.countSell)) := by
  intro stored stored' closes r
  refine ⟨rfl, ?_⟩
  intro h
  rw [calculate_counter_logic] at h ⊢
  simp only at h ⊢
  rw [h]

/-- C1 witness: stored counters (5, 7) before a call on `[100, 204]`. -/
theorem C1_witness :
    (calculate_counter_logic (5, 7) [100, 204]).1 =
      (calculate_counter_logic (0, 0) [100, 204]).1 ∧
    (calculate_counter_logic (5, 7) [100, 204]).2 = (1, 0) :=
  ⟨(C1_counters_reset_per_call (5, 7) (0, 0) [100, 204]
      ⟨1, 0, true, false, false, false⟩).1,
   (C1_counters_reset_per_call (5, 7) (0, 0) [100, 204]
      ⟨1, 0, true, false, false, false⟩).2 (by
        norm_num [calculate_counter_logic, counterRows, counterRowsAux, counterStep,
          mkRow, buy_sell_flags, emaList, emaFrom, emaStep])⟩

/-! ### Indexing the counter loop -/

/-- The flags of the candle preceding index `i`, as seen by the loop
(`prev` is what precedes the whole window: nothing for a fresh call). -/
def prevFlag (prev : Option (Bool × Bool)) (flags : List (Bool × Bool)) :
    ℕ → Option (Bool × Bool)
  | 0 => prev
  | i + 1 => flags[i]?

theorem prevFlag_cons (f : Bool × Bool) (rest : List (Bool × Bool)) (i : ℕ) :
    prevFlag (some f) rest i = (f :: rest)[i]? := by
  cases i with
  | zero => simp [prevFlag]
  | succ j => simp [prevFlag]

theorem counterRowsAux_getElem? :
    ∀ (flags : List (Bool × Bool)) (st : ℤ × ℤ) (prev : Option (Bool × Bool))
      (i : ℕ),
      (counterRowsAux st prev flags)[i]? =
        (flags[i]?).map fun f =>
          mkRow (List.foldl counterStep st (flags.take (i + 1))) f
            (prevFlag prev flags i) := by
  intro flags
  induction flags with
  | nil => intro st prev i; simp [counterRowsAux]
  | cons f rest ih =>
      intro st prev i
      cases i with
      | zero =>
          simp [counterRowsAux, prevFlag]
      | succ i =>
          simp only [counterRowsAux, List.getElem?_cons_succ, List.take_succ_cons,
            List.foldl_cons]
          rw [ih (counterStep st f) (some f) i, prevFlag_cons]
          simp [prevFlag]

theorem counterRows_getElem? (flags : List (Bool × Bool)) (i : ℕ) :
    (counterRows flags)[i]? =
      (flags[i]?).map fun f =>
        mkRow (List.foldl counterStep (0, 0) (flags.take (i + 1))) f
          (prevFlag none flags i) :=
  counterRowsAux_getElem? flags (0, 0) none i

/-! ### Counter state invariants -/

theorem counterStep_inv (st : ℤ × ℤ) (f : Bool × Bool)
    (h1 : 0 ≤ st.1) (h2 : 0 ≤ st.2) (h3 : st.1 = 0 ∨ st.2 = 0) :
    0 ≤ (counterStep st f).1 ∧ 0 ≤ (counterStep st f).2 ∧
    ((counterStep st f).1 = 0 ∨ (counterStep st f).2 = 0) := by
  obtain ⟨cb, cs⟩ := st
  obtain ⟨b, s⟩ := f
  cases b <;> cases s <;> simp [counterStep] <;> omega

theorem counterStep_zero_iff (st : ℤ × ℤ) (f : Bool × Bool)
    (h1 : 0 ≤ st.1) (h2 : 0 ≤ st.2) :
    (counterStep st f = (0, 0) ↔ st = (0, 0) ∧ (!f.1 && !f.2) = true) := by
  obtain ⟨cb, cs⟩ := st
  obtain ⟨b, s⟩ := f
  cases b <;> cases s <;>
    simp [counterStep, Prod.ext_iff] <;> omega

theorem foldl_counterStep_inv :
    ∀ (l : List (Bool × Bool)) (st : ℤ × ℤ),
      0 ≤ st.1 → 0 ≤ st.2 → (st.1 = 0 ∨ st.2 = 0) →
      0 ≤ (List.foldl counterStep st l).1 ∧ 0 ≤ (List.foldl counterStep st l).2 ∧
      ((List.foldl counterStep st l).1 = 0 ∨ (List.foldl counterStep st l).2 = 0) := by
  intro l
  induction l with
  | nil => intro st h1 h2 h3; exact ⟨h1, h2, h3⟩
  | cons f rest ih =>
      intro st h1 h2 h3
      obtain ⟨g1, g2, g3⟩ := counterStep_inv st f h1 h2 h3
      exact ih (counterStep st f) g1 g2 g3

theorem foldl_counterStep_zero_iff :
    ∀ (l : List (Bool × Bool)) (st : ℤ × ℤ),
      0 ≤ st.1 → 0 ≤ st.2 → (st.1 = 0 ∨ st.2 = 0) →
      (List.foldl counterStep st l = (0, 0) ↔
        st = (0, 0) ∧ l.all (fun f => !f.1 && !f.2) = true) := by
  intro l
  induction l with
  | nil => intro st _ _ _; simp
  | cons f rest ih =>
      intro st h1 h2 h3
      obtain ⟨g1, g2, g3⟩ := counterStep_inv st f h1 h2 h3
      rw [List.foldl_cons, ih (counterStep st f) g1 g2 g3,
        counterStep_zero_iff st f h1 h2, List.all_cons]
      constructor
      · rintro ⟨⟨hst, hf⟩, hrest⟩
        exact ⟨hst, by rw [hf, hrest]; rfl⟩
      · rintro ⟨hst, hall⟩
        rw [Bool.and_eq_true] at hall
        exact ⟨⟨hst, hall.1⟩, hall.2⟩

/-- C8: at every candle of a processed window, both counters are
non-negative, at most one of countBuy/countSell is nonzero, and both are
zero exactly when no candle up to that point has had the buy or sell
condition true (the all-neutral prefix, i.e. "before any buy or sell
condition has held"). -/
theorem C8_counter_invariant :
    ∀ (closes : List ℚ) (i : ℕ) (r : CRow),
      (counterRows (buy_sell_flags closes))[i]? = some r →
      0 ≤ r.countBuy ∧ 0 ≤ r.countSell ∧
      ¬(r.countBuy ≠ 0 ∧ r.countSell ≠ 0) ∧
      ((r.countBuy = 0 ∧ r.countSell = 0) ↔
        ((buy_sell_flags closes).take (i + 1)).all (fun f => !f.1 && !f.2) = true) := by
  intro closes i r h
  rw [counterRows_getElem?] at h
  obtain ⟨f, hf, hr⟩ := Option.map_eq_some'.mp h
  obtain ⟨g1, g2, g3⟩ := foldl_counterStep_inv
    ((buy_sell_flags closes).take (i + 1)) (0, 0) le_rfl le_rfl (Or.inl rfl)
  have hzero := foldl_counterStep_zero_iff
    ((buy_sell_flags closes).take (i + 1)) (0, 0) le_rfl le_rfl (Or.inl rfl)
  have hcb : r.countBuy = (List.foldl counterStep ((0 : ℤ), (0 : ℤ))
      ((buy_sell_flags closes).take (i + 1))).1 := by rw [← hr]; rfl
  have hcs : r.countSell = (List.foldl counterStep ((0 : ℤ), (0 : ℤ))
      ((buy_sell_flags closes).take (i + 1))).2 := by rw [← hr]; rfl
  rw [hcb, hcs]
  refine ⟨g1, g2, by omega, ?_⟩
  constructor
  · intro hz
    exact (hzero.mp (Prod.ext hz.1 hz.2)).2
  · intro hall
    have h2 := hzero.mpr ⟨rfl, hall⟩
    exact ⟨congrArg Prod.fst h2, congrArg Prod.snd h2⟩

/-- C8 witness: the window `[100, 204]` (neutral candle then a buy
candle), at index 1. -/
theorem C8_witness :
    0 ≤ (1 : ℤ) ∧ 0 ≤ (0 : ℤ) ∧ ¬((1 : ℤ) ≠ 0 ∧ (0 : ℤ) ≠ 0) ∧
    (((1 : ℤ) = 0 ∧ (0 : ℤ) = 0) ↔
      ((buy_sell_flags [100, 204]).take 2).all (fun f => !f.1 && !f.2) = true) :=
  C8_counter_invariant [100, 204] 1 ⟨1, 0, true, false, false, false⟩ (by
    norm_num [counterRows, counterRowsAux, counterStep, mkRow,
      buy_sell_flags, emaList, emaFrom, emaStep])

/-! ### The one-shot buy signal (C7) -/

theorem buy_sell_flags_exclusive (closes : List ℚ) (i : ℕ) (f : Bool × Bool)
    (h : (buy_sell_flags closes)[i]? = some f) : ¬(f.1 = true ∧ f.2 = true) := by
  rw [buy_sell_flags, List.getElem?_zipWith] at h
  rcases hx : (emaList 12 closes)[i]? with _ | a
  · rw [hx] at h; exact absurd h (by simp)
  · rcases hy : (emaList 25 closes)[i]? with _ | b
    · rw [hx, hy] at h; exact absurd h (by simp)
    · rw [hx, hy] at h
      simp only [Option.some.injEq] at h
      rintro ⟨h1, h2⟩
      rw [← h] at h1 h2
      simp only [decide_eq_true_eq] at h1 h2
      exact absurd h2 (not_lt.mpr (le_of_lt h1))

theorem counterStep_sell_fst (st : ℤ × ℤ) (f : Bool × Bool) (h : f.2 = true) :
    (counterStep st f).1 = 0 := by
  obtain ⟨b, s⟩ := f
  cases hb : b <;> simp_all [counterStep]

theorem counterStep_buy_eq (st : ℤ × ℤ) (f : Bool × Bool) (h1 : f.1 = true)
    (h2 : f.2 = false) : counterStep st f = (st.1 + 1, 0) := by
  obtain ⟨b, s⟩ := f
  simp_all [counterStep]

theorem foldl_take_succ (flags : List (Bool × Bool)) (j : ℕ) (fj : Bool × Bool)
    (h : flags[j]? = some fj) :
    List.foldl counterStep (0, 0) (flags.take (j + 1)) =
      counterStep (List.foldl counterStep (0, 0) (flags.take j)) fj := by
  rw [List.take_succ, h]
  simp [List.foldl_append]

/-- C7 (amended): in every candle window with a run of at least 2
consecutive buy candles whose immediately preceding candle is a *sell*
candle, `buysignal` is true exactly once within the run, namely on its
first candle.  (The counterexample shows the claim's weaker premise — the
preceding candle merely not-buy, e.g. neutral — does not suffice, because
a neutral candle carries a previous nonzero countBuy into the run.) -/
theorem C7_buysignal_once_after_sell :
    ∀ (closes : List ℚ) (s len : ℕ),
      1 ≤ s → 2 ≤ len →
      s + len ≤ (buy_sell_flags closes).length →
      (∀ k, s ≤ k → k < s + len →
        ((buy_sell_flags closes)[k]?.map Prod.fst) = some true) →
      ((buy_sell_flags closes)[s - 1]?.map Prod.snd) = some true →
      ((counterRows (buy_sell_flags closes))[s]?.map CRow.buysignal) = some true ∧
      ∀ k, s < k → k < s + len →
        ((counterRows (buy_sell_flags closes))[k]?.map CRow.buysignal) = some false := by
  intro closes s len hs hlen hle hbuy hsell
  obtain ⟨fs, hfs, hfs1⟩ := Option.map_eq_some'.mp (hbuy s le_rfl (by omega))
  obtain ⟨fp, hfp, hfp2⟩ := Option.map_eq_some'.mp hsell
  have hfp1 : fp.1 = false := by
    cases h1 : fp.1
    · rfl
    · exact absurd ⟨h1, hfp2⟩ (buy_sell_flags_exclusive closes (s - 1) fp hfp)
  have hfs2 : fs.2 = false := by
    cases h2 : fs.2
    · rfl
    · exact absurd ⟨hfs1, h2⟩ (buy_sell_flags_exclusive closes s fs hfs)
  have hs1 : s - 1 + 1 = s := by omega
  have hprevS : prevFlag none (buy_sell_flags closes) s = some fp := by
    rw [← hs1]
    show (buy_sell_flags closes)[s - 1]? = some fp
    exact hfp
  have hstPrev : (List.foldl counterStep (0, 0)
      ((buy_sell_flags closes).take s)).1 = 0 := by
    conv_lhs => rw [← hs1]
    rw [foldl_take_succ (buy_sell_flags closes) (s - 1) fp hfp]
    exact counterStep_sell_fst _ fp hfp2
  have hstS : List.foldl counterStep (0, 0)
      ((buy_sell_flags closes).take (s + 1)) = (1, 0) := by
    rw [foldl_take_succ (buy_sell_flags closes) s fs hfs,
      counterStep_buy_eq _ fs hfs1 hfs2, hstPrev]
    norm_num
  constructor
  · rw [counterRows_getElem?, hfs]
    simp only [Option.map_some']
    congr 1
    rw [hstS, hprevS, mkRow, hfs1, hfp1]
    simp
  · intro k hks hklen
    obtain ⟨fk, hfk, hfk1⟩ := Option.map_eq_some'.mp (hbuy k (by omega) hklen)
    obtain ⟨fk1, hfk1p, hfk1b⟩ := Option.map_eq_some'.mp
      (hbuy (k - 1) (by omega) (by omega))
    have hk1 : k - 1 + 1 = k := by omega
    have hprevK : prevFlag none (buy_sell_flags closes) k = some fk1 := by
      rw [← hk1]
      show (buy_sell_flags closes)[k - 1]? = some fk1
      exact hfk1p
    rw [counterRows_getElem?, hfk]
    simp only [Option.map_some']
    congr 1
    rw [hprevK, mkRow, hfk1b]
    simp

/-- C7 witness: closes `[100, 50, 200, 300]` (neutral, sell, buy, buy):
the buy run starts at index 2 after a sell candle and the signal fires
exactly there. -/
theorem C7_witness :
    ((counterRows (buy_sell_flags [100, 50, 200, 300]))[2]?.map CRow.buysignal)
      = some true ∧
    ∀ k, 2 < k → k < 2 + 2 →
      ((counterRows (buy_sell_flags [100, 50, 200, 300]))[k]?.map CRow.buysignal)
        = some false :=
  C7_buysignal_once_after_sell [100, 50, 200, 300] 2 2 (by norm_num) (by norm_num)
    (by norm_num [buy_sell_flags, emaList, emaFrom, emaStep])
    (by
      intro k h1 h2
      interval_cases k <;>
        norm_num [buy_sell_flags, emaList, emaFrom, emaStep])
    (by norm_num [buy_sell_flags, emaList, emaFrom, emaStep])

/-- C7 counterexample: closes `[100, 204, 20, 200, 200]` yield the buy
flags `[false, true, false, true, true]` — candles 3 and 4 form a buy run
of length 2 whose immediately preceding candle 2 is not a buy candle
(it is neutral: the two EMAs are exactly equal there) — yet `buysignal` is
false on both candles of the run: the signal does not fire on the run's
first candle, because countBuy = 1 was carried through the neutral candle
and the run's first candle already reaches countBuy = 2. -/
theorem C7_counterexample :
    ((buy_sell_flags [100, 204, 20, 200, 200])[2]?.map Prod.fst) = some false ∧
    ((buy_sell_flags [100, 204, 20, 200, 200])[2]?.map Prod.snd) = some false ∧
    ((buy_sell_flags [100, 204, 20, 200, 200])[3]?.map Prod.fst) = some true ∧
    ((buy_sell_flags [100, 204, 20, 200, 200])[4]?.map Prod.fst) = some true ∧
    ((counterRows (buy_sell_flags [100, 204, 20, 200, 200]))[3]?.map CRow.buysignal)
      = some false ∧
    ((counterRows (buy_sell_flags [100, 204, 20, 200, 200]))[4]?.map CRow.buysignal)
      = some false := by
  refine ⟨?_, ?_, ?_, ?_, ?_, ?_⟩ <;>
    norm_num [counterRows, counterRowsAux, counterStep, mkRow,
      buy_sell_flags, emaList, emaFrom, emaStep]

/-! ### PFloat computation lemmas -/

theorem add_num_num (a b : ℚ) : PFloat.add (.num a) (.num b) = .num (a + b) := rfl

theorem sub_num_num (a b : ℚ) : PFloat.sub (.num a) (.num b) = .num (a - b) := rfl

theorem mul_num_num (a b : ℚ) : PFloat.mul (.num a) (.num b) = .num (a * b) := rfl

theorem div_num_num (a b : ℚ) : PFloat.div (.num a) (.num b) =
    if b = 0 then (if a = 0 then .nan else if a > 0 then .inf else .ninf)
    else .num (a / b) := rfl

theorem div_inf_num (b : ℚ) : PFloat.div .inf (.num b) =
    if b < 0 then .ninf else .inf := rfl

theorem div_ninf_num (b : ℚ) : PFloat.div .ninf (.num b) =
    if b < 0 then .inf else .ninf := rfl

theorem sub_nan_right (a : PFloat) : PFloat.sub a .nan = .nan := by cases a <;> rfl

theorem mul_nan_right (a : PFloat) : PFloat.mul a .nan = .nan := by cases a <;> rfl

theorem div_nan_right (a : PFloat) : PFloat.div a .nan = .nan := by cases a <;> rfl

theorem add_nan_right (a : PFloat) : PFloat.add a .nan = .nan := by cases a <;> rfl

theorem add_nan_left (b : PFloat) : PFloat.add .nan b = .nan := by cases b <;> rfl

theorem sub_nan_left (b : PFloat) : PFloat.sub .nan b = .nan := by cases b <;> rfl

theorem mul_nan_left (b : PFloat) : PFloat.mul .nan b = .nan := by cases b <;> rfl

theorem div_nan_left (b : PFloat) : PFloat.div .nan b = .nan := by cases b <;> rfl

theorem add_num_inv (a b : PFloat) (s : ℚ) (h : PFloat.add a b = .num s) :
    ∃ x y, a = .num x ∧ b = .num y ∧ s = x + y := by
  cases a with
  | num x =>
      cases b with
      | num y =>
          refine ⟨x, y, rfl, rfl, ?_⟩
          exact (PFloat.num.inj h).symm
      | nan => exact absurd h (by simp [PFloat.add])
      | inf => exact absurd h (by simp [PFloat.add])
      | ninf => exact absurd h (by simp [PFloat.add])
  | nan => exact absurd h (by simp [PFloat.add])
  | inf => cases b <;> exact absurd h (by simp [PFloat.add])
  | ninf => cases b <;> exact absurd h (by simp [PFloat.add])

theorem sumP_num_lower (lo : ℚ) :
    ∀ (l : List PFloat) (s : ℚ), sumP l = .num s →
      (∀ x ∈ l, ∀ q : ℚ, x = .num q → lo ≤ q) →
      lo * l.length ≤ s := by
  intro l
  induction l with
  | nil =>
      intro s hs _
      obtain rfl : (0 : ℚ) = s := PFloat.num.inj hs
      simp
  | cons x t ih =>
      intro s hs hb
      obtain ⟨qx, st, hx, hst, rfl⟩ := add_num_inv x (sumP t) s hs
      have h1 := hb x (List.mem_cons_self x t) qx hx
      have h2 := ih st hst (fun y hy => hb y (List.mem_cons_of_mem x hy))
      have hc : ((x :: t).length : ℚ) = (t.length : ℚ) + 1 := by push_cast [List.length_cons]; ring
      rw [hc]
      nlinarith [h1, h2]

theorem sumP_num_upper (hi : ℚ) :
    ∀ (l : List PFloat) (s : ℚ), sumP l = .num s →
      (∀ x ∈ l, ∀ q : ℚ, x = .num q → q ≤ hi) →
      s ≤ hi * l.length := by
  intro l
  induction l with
  | nil =>
      intro s hs _
      obtain rfl : (0 : ℚ) = s := PFloat.num.inj hs
      simp
  | cons x t ih =>
      intro s hs hb
      obtain ⟨qx, st, hx, hst, rfl⟩ := add_num_inv x (sumP t) s hs
      have h1 := hb x (List.mem_cons_self x t) qx hx
      have h2 := ih st hst (fun y hy => hb y (List.mem_cons_of_mem x hy))
      have hc : ((x :: t).length : ℚ) = (t.length : ℚ) + 1 := by push_cast [List.length_cons]; ring
      rw [hc]
      nlinarith [h1, h2]

theorem sumP_num_or_nan :
    ∀ (l : List PFloat), (∀ x ∈ l, x = .nan ∨ ∃ q, x = .num q) →
      sumP l = .nan ∨ ∃ s, sumP l = .num s := by
  intro l
  induction l with
  | nil => exact fun _ => Or.inr ⟨0, rfl⟩
  | cons x t ih =>
      intro h
      have hx := h x (List.mem_cons_self x t)
      have ht := ih (fun y hy => h y (List.mem_cons_of_mem x hy))
      show PFloat.add x (sumP t) = .nan ∨ ∃ s, PFloat.add x (sumP t) = .num s
      rcases hx with rfl | ⟨qx, rfl⟩
      · exact Or.inl (add_nan_left _)
      · rcases ht with hn | ⟨s, hn⟩ <;> rw [hn]
        · exact Or.inl (add_nan_right _)
        · exact Or.inr ⟨qx + s, rfl⟩

theorem meanP_num_or_nan (l : List PFloat)
    (h : ∀ x ∈ l, x = .nan ∨ ∃ q, x = .num q) :
    meanP l = .nan ∨ ∃ m, meanP l = .num m := by
  rcases sumP_num_or_nan l h with hs | ⟨s, hs⟩
  · left; rw [meanP, hs]; rfl
  · rw [meanP, hs]
    cases l with
    | nil =>
        left
        obtain rfl : (0 : ℚ) = s := PFloat.num.inj hs
        simp [div_num_num]
    | cons y t =>
        right
        refine ⟨s / ((y :: t).length : ℚ), ?_⟩
        rw [div_num_num, if_neg]
        exact Nat.cast_ne_zero.mpr (by simp)

theorem meanP_num_lower (lo : ℚ) (l : List PFloat) (m : ℚ)
    (h : meanP l = .num m)
    (hb : ∀ x ∈ l, ∀ q : ℚ, x = .num q → lo ≤ q) :
    lo ≤ m := by
  rw [meanP] at h
  rcases hsum : sumP l with _ | _ | _ | s <;> rw [hsum] at h
  · exact absurd h (by simp [PFloat.div])
  · rw [div_inf_num] at h
    split at h <;> exact absurd h (by simp)
  · rw [div_ninf_num] at h
    split at h <;> exact absurd h (by simp)
  · rw [div_num_num] at h
    by_cases hl : ((l.length : ℚ)) = 0
    · rw [if_pos hl] at h
      split at h
      · exact absurd h (by simp)
      · split at h <;> exact absurd h (by simp)
    · rw [if_neg hl] at h
      obtain rfl : s / (l.length : ℚ) = m := PFloat.num.inj h
      have hpos : (0 : ℚ) < (l.length : ℚ) := by
        rcases Nat.eq_zero_or_pos l.length with h0 | h0
        · exact absurd (by rw [h0]; simp) hl
        · exact_mod_cast h0
      rw [le_div_iff₀ hpos]
      calc lo * (l.length : ℚ) ≤ s := sumP_num_lower lo l s hsum hb
        _ = s := rfl

theorem meanP_num_upper (hi : ℚ) (l : List PFloat) (m : ℚ)
    (h : meanP l = .num m)
    (hb : ∀ x ∈ l, ∀ q : ℚ, x = .num q → q ≤ hi) :
    m ≤ hi := by
  rw [meanP] at h
  rcases hsum : sumP l with _ | _ | _ | s <;> rw [hsum] at h
  · exact absurd h (by simp [PFloat.div])
  · rw [div_inf_num] at h
    split at h <;> exact absurd h (by simp)
  · rw [div_ninf_num] at h
    split at h <;> exact absurd h (by simp)
  · rw [div_num_num] at h
    by_cases hl : ((l.length : ℚ)) = 0
    · rw [if_pos hl] at h
      split at h
      · exact absurd h (by simp)
      · split at h <;> exact absurd h (by simp)
    · rw [if_neg hl] at h
      obtain rfl : s / (l.length : ℚ) = m := PFloat.num.inj h
      have hpos : (0 : ℚ) < (l.length : ℚ) := by
        rcases Nat.eq_zero_or_pos l.length with h0 | h0
        · exact absurd (by rw [h0]; simp) hl
        · exact_mod_cast h0
      rw [div_le_iff₀ hpos]
      exact sumP_num_upper hi l s hsum hb

theorem rollingOp_getElem? (f : List PFloat → PFloat) (n : ℕ) (l : List PFloat)
    (i : ℕ) :
    (rollingOp f n l)[i]? =
      if i < l.length then
        some (if i + 1 < n then .nan else f (windowAt l n i))
      else none := by
  rw [rollingOp, List.getElem?_map]
  by_cases h : i < l.length
  · rw [List.getElem?_range h, if_pos h]
    rfl
  · rw [List.getElem?_eq_none (by simpa using not_lt.mp h), if_neg h]
    rfl

theorem mem_rollingOp (f : List PFloat → PFloat) (n : ℕ) (l : List PFloat)
    (x : PFloat) (h : x ∈ rollingOp f n l) :
    x = .nan ∨ ∃ i, i < l.length ∧ ¬(i + 1 < n) ∧ x = f (windowAt l n i) := by
  rw [rollingOp, List.mem_map] at h
  obtain ⟨i, hi, hx⟩ := h
  rw [List.mem_range] at hi
  by_cases hn : i + 1 < n
  · left; rw [← hx, if_pos hn]
  · right; exact ⟨i, hi, hn, by rw [← hx, if_neg hn]⟩

theorem mem_of_mem_windowAt (l : List PFloat) (n i : ℕ) (x : PFloat)
    (h : x ∈ windowAt l n i) : x ∈ l :=
  List.mem_of_mem_drop (List.mem_of_mem_take h)

theorem self_mem_windowAt (l : List PFloat) (n i : ℕ) (hi : i < l.length)
    (hn : 1 ≤ n) (hni : n ≤ i + 1) : l[i] ∈ windowAt l n i := by
  rw [windowAt]
  have hd : (l.drop (i + 1 - n))[n - 1]? = some l[i] := by
    rw [List.getElem?_drop]
    have he : i + 1 - n + (n - 1) = i := by omega
    rw [he, List.getElem?_eq_some]
    exact ⟨hi, rfl⟩
  have ht : ((l.drop (i + 1 - n)).take n)[n - 1]? = some l[i] := by
    rw [List.getElem?_take, if_pos (by omega)]
    exact hd
  exact List.mem_iff_getElem?.mpr ⟨n - 1, ht⟩

theorem windowAt_zero (l : List PFloat) (i : ℕ) : windowAt l 0 i = [] := by
  rw [windowAt]
  simp

theorem zipWith_getElem?_some {α β γ : Type} (f : α → β → γ) :
    ∀ (a : List α) (b : List β) (i : ℕ) (c : γ),
      (List.zipWith f a b)[i]? = some c →
      ∃ x y, a[i]? = some x ∧ b[i]? = some y ∧ c = f x y := by
  intro a
  induction a with
  | nil => intro b i c h; simp at h
  | cons x as ih =>
      intro b i c h
      cases b with
      | nil => simp at h
      | cons y bs =>
          cases i with
          | zero =>
              rw [List.zipWith_cons_cons, List.getElem?_cons_zero] at h
              exact ⟨x, y, by simp, by simp, (Option.some.inj h).symm⟩
          | succ j =>
              rw [List.zipWith_cons_cons, List.getElem?_cons_succ] at h
              obtain ⟨x', y', h1, h2, h3⟩ := ih bs j c h
              exact ⟨x', y', by simpa using h1, by simpa using h2, h3⟩

theorem zipWith_getElem?_of_some {α β γ : Type} (f : α → β → γ) :
    ∀ (a : List α) (b : List β) (i : ℕ) (x : α) (y : β),
      a[i]? = some x → b[i]? = some y →
      (List.zipWith f a b)[i]? = some (f x y) := by
  intro a
  induction a with
  | nil => intro b i x y hx _; simp at hx
  | cons z as ih =>
      intro b i x y hx hy
      cases b with
      | nil => simp at hy
      | cons w bs =>
          cases i with
          | zero =>
              rw [List.getElem?_cons_zero] at hx hy
              rw [List.zipWith_cons_cons, List.getElem?_cons_zero,
                Option.some.inj hx, Option.some.inj hy]
          | succ j =>
              rw [List.getElem?_cons_succ] at hx hy
              rw [List.zipWith_cons_cons, List.getElem?_cons_succ]
              exact ih bs j x y hx hy

/-! ### Rolling minimum / maximum -/

theorem min2_num_inv (a b : PFloat) (m : ℚ) (h : PFloat.min2 a b = .num m)
    (ha : a = .nan ∨ ∃ q, a = .num q) (hb : b = .nan ∨ ∃ q, b = .num q) :
    (∃ x, a = .num x ∧ m ≤ x) ∧ (∃ y, b = .num y ∧ m ≤ y) := by
  rcases ha with rfl | ⟨x, rfl⟩
  · exact absurd h (by cases b <;> simp [PFloat.min2])
  · rcases hb with rfl | ⟨y, rfl⟩
    · exact absurd h (by simp [PFloat.min2])
    · have he : PFloat.min2 (.num x) (.num y) = .num (min x y) := rfl
      rw [he] at h
      have hm := PFloat.num.inj h
      exact ⟨⟨x, rfl, by rw [← hm]; exact min_le_left x y⟩,
             ⟨y, rfl, by rw [← hm]; exact min_le_right x y⟩⟩

theorem max2_num_inv (a b : PFloat) (m : ℚ) (h : PFloat.max2 a b = .num m)
    (ha : a = .nan ∨ ∃ q, a = .num q) (hb : b = .nan ∨ ∃ q, b = .num q) :
    (∃ x, a = .num x ∧ x ≤ m) ∧ (∃ y, b = .num y ∧ y ≤ m) := by
  rcases ha with rfl | ⟨x, rfl⟩
  · exact absurd h (by cases b <;> simp [PFloat.max2])
  · rcases hb with rfl | ⟨y, rfl⟩
    · exact absurd h (by simp [PFloat.max2])
    · have he : PFloat.max2 (.num x) (.num y) = .num (max x y) := rfl
      rw [he] at h
      have hm := PFloat.num.inj h
      exact ⟨⟨x, rfl, by rw [← hm]; exact le_max_left x y⟩,
             ⟨y, rfl, by rw [← hm]; exact le_max_right x y⟩⟩

theorem min2_mem (a b : PFloat) :
    PFloat.min2 a b = .nan ∨ PFloat.min2 a b = a ∨ PFloat.min2 a b = b := by
  cases a <;> cases b <;>
    first
      | exact Or.inl rfl
      | exact Or.inr (Or.inl rfl)
      | exact Or.inr (Or.inr rfl)
      | skip
  case num.num x y =>
    rcases le_total x y with h | h
    · exact Or.inr (Or.inl (by rw [show PFloat.min2 (.num x) (.num y)
        = .num (min x y) from rfl, min_eq_left h]))
    · exact Or.inr (Or.inr (by rw [show PFloat.min2 (.num x) (.num y)
        = .num (min x y) from rfl, min_eq_right h]))

theorem max2_mem (a b : PFloat) :
    PFloat.max2 a b = .nan ∨ PFloat.max2 a b = a ∨ PFloat.max2 a b = b := by
  cases a <;> cases b <;>
    first
      | exact Or.inl rfl
      | exact Or.inr (Or.inl rfl)
      | exact Or.inr (Or.inr rfl)
      | skip
  case num.num x y =>
    rcases le_total x y with h | h
    · exact Or.inr (Or.inr (by rw [show PFloat.max2 (.num x) (.num y)
        = .num (max x y) from rfl, max_eq_right h]))
    · exact Or.inr (Or.inl (by rw [show PFloat.max2 (.num x) (.num y)
        = .num (max x y) from rfl, max_eq_left h]))

theorem minPL_mem_or_nan : ∀ (l : List PFloat), minPL l = .nan ∨ minPL l ∈ l := by
  intro l
  induction l with
  | nil => exact Or.inl rfl
  | cons a t ih =>
      cases t with
      | nil => exact Or.inr (List.mem_singleton.mpr rfl)
      | cons b t2 =>
          have hstep : minPL (a :: b :: t2) = PFloat.min2 a (minPL (b :: t2)) := rfl
          rw [hstep]
          rcases min2_mem a (minPL (b :: t2)) with h | h | h <;> rw [h]
          · exact Or.inl rfl
          · exact Or.inr (List.mem_cons_self a _)
          · rcases ih with hn | hm
            · exact Or.inl hn
            · exact Or.inr (List.mem_cons_of_mem a hm)

theorem maxPL_mem_or_nan : ∀ (l : List PFloat), maxPL l = .nan ∨ maxPL l ∈ l := by
  intro l
  induction l with
  | nil => exact Or.inl rfl
  | cons a t ih =>
      cases t with
      | nil => exact Or.inr (List.mem_singleton.mpr rfl)
      | cons b t2 =>
          have hstep : maxPL (a :: b :: t2) = PFloat.max2 a (maxPL (b :: t2)) := rfl
          rw [hstep]
          rcases max2_mem a (maxPL (b :: t2)) with h | h | h <;> rw [h]
          · exact Or.inl rfl
          · exact Or.inr (List.mem_cons_self a _)
          · rcases ih with hn | hm
            · exact Or.inl hn
            · exact Or.inr (List.mem_cons_of_mem a hm)

theorem minPL_num_le :
    ∀ (l : List PFloat), (∀ x ∈ l, x = .nan ∨ ∃ q, x = .num q) →
      ∀ m : ℚ, minPL l = .num m → ∀ x ∈ l, ∃ q, x = .num q ∧ m ≤ q := by
  intro l
  induction l with
  | nil => intro _ m h; exact absurd h (by simp [minPL])
  | cons a t ih =>
      intro hnn m h x hx
      cases t with
      | nil =>
          have ha : minPL [a] = a := rfl
          rw [ha] at h
          rcases List.mem_singleton.mp hx with rfl
          exact ⟨m, h, le_rfl⟩
      | cons b t2 =>
          have hstep : minPL (a :: b :: t2) = PFloat.min2 a (minPL (b :: t2)) := rfl
          rw [hstep] at h
          have hnn2 : ∀ y ∈ b :: t2, y = .nan ∨ ∃ q, y = .num q :=
            fun y hy => hnn y (List.mem_cons_of_mem a hy)
          have hrec_nn : minPL (b :: t2) = .nan ∨ ∃ q, minPL (b :: t2) = .num q := by
            rcases minPL_mem_or_nan (b :: t2) with hn | hm
            · exact Or.inl hn
            · exact hnn2 _ hm
          obtain ⟨⟨xa, hxa, hma⟩, ⟨xr, hxr, hmr⟩⟩ :=
            min2_num_inv a (minPL (b :: t2)) m h (hnn a (List.mem_cons_self a _)) hrec_nn
          rcases List.mem_cons.mp hx with rfl | hx2
          · exact ⟨xa, hxa, hma⟩
          · obtain ⟨q, hq, hle⟩ := ih hnn2 xr hxr x hx2
            exact ⟨q, hq, le_trans hmr hle⟩

theorem maxPL_num_ge :
    ∀ (l : List PFloat), (∀ x ∈ l, x = .nan ∨ ∃ q, x = .num q) →
      ∀ m : ℚ, maxPL l = .num m → ∀ x ∈ l, ∃ q, x = .num q ∧ q ≤ m := by
  intro l
  induction l with
  | nil => intro _ m h; exact absurd h (by simp [maxPL])
  | cons a t ih =>
      intro hnn m h x hx
      cases t with
      | nil =>
          have ha : maxPL [a] = a := rfl
          rw [ha] at h
          rcases List.mem_singleton.mp hx with rfl
          exact ⟨m, h, le_rfl⟩
      | cons b t2 =>
          have hstep : maxPL (a :: b :: t2) = PFloat.max2 a (maxPL (b :: t2)) := rfl
          rw [hstep] at h
          have hnn2 : ∀ y ∈ b :: t2, y = .nan ∨ ∃ q, y = .num q :=
            fun y hy => hnn y (List.mem_cons_of_mem a hy)
          have hrec_nn : maxPL (b :: t2) = .nan ∨ ∃ q, maxPL (b :: t2) = .num q := by
            rcases maxPL_mem_or_nan (b :: t2) with hn | hm
            · exact Or.inl hn
            · exact hnn2 _ hm
          obtain ⟨⟨xa, hxa, hma⟩, ⟨xr, hxr, hmr⟩⟩ :=
            max2_num_inv a (maxPL (b :: t2)) m h (hnn a (List.mem_cons_self a _)) hrec_nn
          rcases List.mem_cons.mp hx with rfl | hx2
          · exact ⟨xa, hxa, hma⟩
          · obtain ⟨q, hq, hle⟩ := ih hnn2 xr hxr x hx2
            exact ⟨q, hq, le_trans hle hmr⟩

/-! ### Range preservation through the pipeline -/

theorem rollingMean_range (lo hi : ℚ) (n : ℕ) (l : List PFloat)
    (hl : ∀ x ∈ l, x = .nan ∨ ∃ q, x = .num q ∧ lo ≤ q ∧ q ≤ hi) :
    ∀ x ∈ rollingOp meanP n l, x = .nan ∨ ∃ q, x = .num q ∧ lo ≤ q ∧ q ≤ hi := by
  intro x hx
  rcases mem_rollingOp meanP n l x hx with rfl | ⟨i, _, _, rfl⟩
  · exact Or.inl rfl
  · have hw : ∀ y ∈ windowAt l n i, y = .nan ∨ ∃ q, y = .num q := by
      intro y hy
      rcases hl y (mem_of_mem_windowAt l n i y hy) with rfl | ⟨q, hq, _, _⟩
      · exact Or.inl rfl
      · exact Or.inr ⟨q, hq⟩
    rcases meanP_num_or_nan _ hw with h | ⟨m, h⟩
    · exact Or.inl h
    · right
      have hb : ∀ y ∈ windowAt l n i, ∀ q : ℚ, y = .num q → lo ≤ q ∧ q ≤ hi := by
        intro y hy q hq
        rcases hl y (mem_of_mem_windowAt l n i y hy) with rfl | ⟨q', hq', h1, h2⟩
        · exact absurd hq (by simp)
        · rw [hq'] at hq
          obtain rfl := PFloat.num.inj hq
          exact ⟨h1, h2⟩
      exact ⟨m, h,
        meanP_num_lower lo _ m h (fun y hy q hq => (hb y hy q hq).1),
        meanP_num_upper hi _ m h (fun y hy q hq => (hb y hy q hq).2)⟩

theorem diffP_num_or_nan (prices : List ℚ) :
    ∀ x ∈ diffP prices, x = .nan ∨ ∃ q, x = .num q := by
  intro x hx
  cases prices with
  | nil => simp [diffP] at hx
  | cons p ps =>
      rw [diffP] at hx
      rcases List.mem_cons.mp hx with rfl | hx2
      · exact Or.inl rfl
      · right
        obtain ⟨i, hi⟩ := List.mem_iff_getElem?.mp hx2
        obtain ⟨a, b, _, _, rfl⟩ := zipWith_getElem?_some _ _ _ i x hi
        exact ⟨b - a, rfl⟩

theorem gainList_nonneg (prices : List ℚ) :
    ∀ x ∈ gainList prices, ∃ q, x = .num q ∧ 0 ≤ q := by
  intro x hx
  rw [gainList, List.mem_map] at hx
  obtain ⟨d, hd, rfl⟩ := hx
  rcases diffP_num_or_nan prices d hd with rfl | ⟨q, rfl⟩
  · exact ⟨0, by simp [PFloat.gtZero], le_rfl⟩
  · by_cases hq : q > 0
    · exact ⟨q, by simp [PFloat.gtZero, hq], le_of_lt hq⟩
    · exact ⟨0, by simp [PFloat.gtZero, hq], le_rfl⟩

theorem lossList_nonneg (prices : List ℚ) :
    ∀ x ∈ lossList prices, ∃ q, x = .num q ∧ 0 ≤ q := by
  intro x hx
  rw [lossList, List.mem_map] at hx
  obtain ⟨d, hd, rfl⟩ := hx
  rcases diffP_num_or_nan prices d hd with rfl | ⟨q, rfl⟩
  · exact ⟨0, by simp [PFloat.ltZero, PFloat.neg], le_rfl⟩
  · by_cases hq : q < 0
    · exact ⟨-q, by simp [PFloat.ltZero, hq, PFloat.neg], by linarith⟩
    · exact ⟨0, by simp [PFloat.ltZero, hq, PFloat.neg], le_rfl⟩

theorem rollingMean_nonneg (n : ℕ) (l : List PFloat)
    (hl : ∀ x ∈ l, ∃ q, x = .num q ∧ 0 ≤ q) :
    ∀ x ∈ rollingOp meanP n l, x = .nan ∨ ∃ q, x = .num q ∧ 0 ≤ q := by
  intro x hx
  rcases mem_rollingOp meanP n l x hx with rfl | ⟨i, _, _, rfl⟩
  · exact Or.inl rfl
  · have hw : ∀ y ∈ windowAt l n i, y = .nan ∨ ∃ q, y = .num q := by
      intro y hy
      obtain ⟨q, hq, _⟩ := hl y (mem_of_mem_windowAt l n i y hy)
      exact Or.inr ⟨q, hq⟩
    rcases meanP_num_or_nan _ hw with h | ⟨m, h⟩
    · exact Or.inl h
    · right
      refine ⟨m, h, meanP_num_lower 0 _ m h ?_⟩
      intro y hy q hq
      obtain ⟨q', hq', hpos⟩ := hl y (mem_of_mem_windowAt l n i y hy)
      rw [hq'] at hq
      obtain rfl := PFloat.num.inj hq
      exact hpos

theorem gainMean_elem (prices : List ℚ) (period : ℕ) :
    ∀ x ∈ gainMean prices period, x = .nan ∨ ∃ q, x = .num q ∧ 0 ≤ q :=
  rollingMean_nonneg period (gainList prices) (gainList_nonneg prices)

theorem lossMean_elem (prices : List ℚ) (period : ℕ) :
    ∀ x ∈ lossMean prices period, x = .nan ∨ ∃ q, x = .num q ∧ 0 ≤ q :=
  rollingMean_nonneg period (lossList prices) (lossList_nonneg prices)

theorem calculate_rsi_range (prices : List ℚ) (period : ℕ) :
    ∀ x ∈ calculate_rsi prices period,
      x = .nan ∨ ∃ q, x = .num q ∧ 0 ≤ q ∧ q ≤ 100 := by
  intro x hx
  simp only [calculate_rsi, List.mem_map] at hx
  obtain ⟨r, hr, rfl⟩ := hx
  obtain ⟨i, hi⟩ := List.mem_iff_getElem?.mp hr
  obtain ⟨g, l, hg, hl, rfl⟩ := zipWith_getElem?_some PFloat.div _ _ i r hi
  have hgm := gainMean_elem prices period g (List.mem_iff_getElem?.mpr ⟨i, hg⟩)
  have hlm := lossMean_elem prices period l (List.mem_iff_getElem?.mpr ⟨i, hl⟩)
  rcases hgm with rfl | ⟨a, rfl, ha⟩
  · rw [div_nan_left, add_nan_right, div_nan_right, sub_nan_right]
    exact Or.inl rfl
  · rcases hlm with rfl | ⟨b, rfl, hb⟩
    · rw [div_nan_right, add_nan_right, div_nan_right, sub_nan_right]
      exact Or.inl rfl
    · rw [div_num_num]
      by_cases hb0 : b = 0
      · rw [if_pos hb0]
        by_cases ha0 : a = 0
        · rw [if_pos ha0, add_nan_right, div_nan_right, sub_nan_right]
          exact Or.inl rfl
        · rw [if_neg ha0, if_pos (lt_of_le_of_ne ha (Ne.symm ha0))]
          right
          refine ⟨100, ?_, by norm_num, by norm_num⟩
          have h1 : PFloat.add (.num 1) .inf = .inf := rfl
          have h2 : PFloat.div (.num 100) .inf = .num 0 := rfl
          rw [h1, h2, sub_num_num]
          norm_num
      · rw [if_neg hb0]
        right
        have hbpos : 0 < b := lt_of_le_of_ne hb (Ne.symm hb0)
        have habnn : 0 ≤ a / b := div_nonneg ha hb
        have h1pos : 0 < 1 + a / b := by linarith
        rw [add_num_num, div_num_num, if_neg (ne_of_gt h1pos), sub_num_num]
        refine ⟨100 - 100 / (1 + a / b), rfl, ?_, ?_⟩
        · have : 100 / (1 + a / b) ≤ 100 := by
            rw [div_le_iff₀ h1pos]
            nlinarith
          linarith
        · have : 0 < 100 / (1 + a / b) := by positivity
          linarith

theorem calculate_rsi_num_or_nan (prices : List ℚ) (period : ℕ) :
    ∀ x ∈ calculate_rsi prices period, x = .nan ∨ ∃ q, x = .num q := by
  intro x hx
  rcases calculate_rsi_range prices period x hx with h | ⟨q, hq, _, _⟩
  · exact Or.inl h
  · exact Or.inr ⟨q, hq⟩

theorem stochRsiList_range (rsi : List PFloat) (sl : ℕ)
    (hnn : ∀ x ∈ rsi, x = .nan ∨ ∃ q, x = .num q) :
    ∀ x ∈ stochRsiList rsi sl, x = .nan ∨ ∃ q, x = .num q ∧ 0 ≤ q ∧ q ≤ 100 := by
  intro x hx
  obtain ⟨i, hi⟩ := List.mem_iff_getElem?.mp hx
  rw [stochRsiList] at hi
  obtain ⟨a, d, ha, hd, rfl⟩ := zipWith_getElem?_some PFloat.div _ _ i x hi
  obtain ⟨r, mn, hr, hmn, rfl⟩ := zipWith_getElem?_some _ _ _ i a ha
  rw [stochDenom, List.getElem?_map] at hd
  obtain ⟨d0, hd0, rfl⟩ := Option.map_eq_some'.mp hd
  obtain ⟨mx, mn', hmx, hmn', rfl⟩ := zipWith_getElem?_some PFloat.sub _ _ i d0 hd0
  rw [hmn] at hmn'
  obtain rfl := Option.some.inj hmn'
  rcases hnn r (List.mem_iff_getElem?.mpr ⟨i, hr⟩) with rfl | ⟨rq, rfl⟩
  · rw [sub_nan_left, mul_nan_right, div_nan_left]
    exact Or.inl rfl
  · rw [rsiMinList, rollingOp_getElem?] at hmn
    have hilen : i < rsi.length := by
      by_contra hc
      rw [if_neg hc] at hmn
      exact Option.noConfusion hmn
    rw [if_pos hilen] at hmn
    obtain rfl := Option.some.inj hmn
    by_cases hwin : i + 1 < sl
    · rw [if_pos hwin, sub_nan_right, mul_nan_right, div_nan_left]
      exact Or.inl rfl
    · rw [if_neg hwin]
      rw [if_neg hwin] at hd0 hd
      have hwnn : ∀ y ∈ windowAt rsi sl i, y = .nan ∨ ∃ q, y = .num q :=
        fun y hy => hnn y (mem_of_mem_windowAt rsi sl i y hy)
      rcases hmin_val : minPL (windowAt rsi sl i) with _ | _ | _ | mq
      · rw [sub_nan_right, mul_nan_right, div_nan_left]
        exact Or.inl rfl
      · rcases minPL_mem_or_nan (windowAt rsi sl i) with hn | hm
        · rw [hmin_val] at hn; exact absurd hn (by simp)
        · rw [hmin_val] at hm
          rcases hwnn _ hm with h | ⟨q, h⟩ <;> exact absurd h (by simp)
      · rcases minPL_mem_or_nan (windowAt rsi sl i) with hn | hm
        · rw [hmin_val] at hn; exact absurd hn (by simp)
        · rw [hmin_val] at hm
          rcases hwnn _ hm with h | ⟨q, h⟩ <;> exact absurd h (by simp)
      · have hsl1 : 1 ≤ sl := by
          rcases Nat.eq_zero_or_pos sl with rfl | hpos
          · rw [windowAt_zero] at hmin_val
            exact absurd hmin_val (by simp [minPL])
          · exact hpos
        have hrmem : rsi[i] ∈ windowAt rsi sl i :=
          self_mem_windowAt rsi sl i hilen hsl1 (not_lt.mp hwin)
        have hri : rsi[i] = PFloat.num rq := (List.getElem?_eq_some.mp hr).2
        obtain ⟨rq', hrq', hge⟩ :=
          minPL_num_le (windowAt rsi sl i) hwnn mq hmin_val rsi[i] hrmem
        rw [hri] at hrq'
        obtain rfl := PFloat.num.inj hrq'
        rw [rsiMaxList, rollingOp_getElem?, if_pos hilen, if_neg hwin] at hmx
        obtain rfl := Option.some.inj hmx
        rcases hmax_val : maxPL (windowAt rsi sl i) with _ | _ | _ | mxq
        · rw [sub_nan_left]
          have hrep : (if (PFloat.nan : PFloat) = .num 0 then PFloat.num 1 else .nan)
              = .nan := by simp
          rw [hrep, div_nan_right]
          exact Or.inl rfl
        · rcases maxPL_mem_or_nan (windowAt rsi sl i) with hn | hm
          · rw [hmax_val] at hn; exact absurd hn (by simp)
          · rw [hmax_val] at hm
            rcases hwnn _ hm with h | ⟨q, h⟩ <;> exact absurd h (by simp)
        · rcases maxPL_mem_or_nan (windowAt rsi sl i) with hn | hm
          · rw [hmax_val] at hn; exact absurd hn (by simp)
          · rw [hmax_val] at hm
            rcases hwnn _ hm with h | ⟨q, h⟩ <;> exact absurd h (by simp)
        · obtain ⟨rq'', hrq'', hle2⟩ :=
            maxPL_num_ge (windowAt rsi sl i) hwnn mxq hmax_val rsi[i] hrmem
          rw [hri] at hrq''
          obtain rfl := PFloat.num.inj hrq''
          rw [sub_num_num, sub_num_num, mul_num_num]
          by_cases hz : mxq - mq = 0
          · rw [if_pos (by rw [hz])]
            rw [div_num_num, if_neg (by norm_num : (1:ℚ) ≠ 0)]
            right
            refine ⟨100 * (rq - mq) / 1, rfl, ?_, ?_⟩
            · have : rq = mq := le_antisymm (by linarith) hge
              rw [this]
              norm_num
            · have : rq = mq := le_antisymm (by linarith) hge
              rw [this]
              norm_num
          · rw [if_neg (by simp [hz])]
            have hlt : 0 < mxq - mq := by
              rcases lt_or_eq_of_le (le_trans hge hle2 : mq ≤ mxq) with h | h
              · linarith
              · exact absurd (by linarith : mxq - mq = 0) hz
            rw [div_num_num, if_neg (ne_of_gt hlt)]
            right
            refine ⟨100 * (rq - mq) / (mxq - mq), rfl, ?_, ?_⟩
            · exact div_nonneg (by nlinarith) (le_of_lt hlt)
            · rw [div_le_iff₀ hlt]
              nlinarith

/-- C4 (amended): the zero-denominator-treated-as-1 guard lives in the
stochastic-RSI denominator (`rsi_max - rsi_min`), not in the RSI: the RSI
computation divides the gain-mean by the loss-mean directly, so a zero
loss-mean with a positive gain-mean yields an infinite ratio and RSI 100
without a division fault, while a window whose gain-mean and loss-mean are
both zero yields NaN.  The %K and %D lines are never infinite, and every
numeric (non-NaN) %K and %D value lies within [0, 100]; NaN values do
occur (warm-up and NaN-RSI windows), as the counterexample shows. -/
theorem C4_rsi_stoch_behaviour :
    (∀ (prices : List ℚ) (period i : ℕ) (gq : ℚ),
      (lossMean prices period)[i]? = some (.num 0) →
      (gainMean prices period)[i]? = some (.num gq) → 0 < gq →
      (calculate_rsi prices period)[i]? = some (.num 100)) ∧
    (∀ (prices : List ℚ) (period sl ks ds : ℕ),
      ∀ x ∈ (calculate_stochastic_rsi (calculate_rsi prices period) sl ks ds).1,
        x = .nan ∨ ∃ q, x = .num q ∧ 0 ≤ q ∧ q ≤ 100) ∧
    (∀ (prices : List ℚ) (period sl ks ds : ℕ),
      ∀ x ∈ (calculate_stochastic_rsi (calculate_rsi prices period) sl ks ds).2,
        x = .nan ∨ ∃ q, x = .num q ∧ 0 ≤ q ∧ q ≤ 100) := by
  refine ⟨?_, ?_, ?_⟩
  · intro prices period i gq hloss hgain hgq
    simp only [calculate_rsi, List.getElem?_map]
    rw [zipWith_getElem?_of_some PFloat.div _ _ i _ _ hgain hloss]
    have hdiv : PFloat.div (.num gq) (.num 0) = .inf := by
      rw [div_num_num, if_pos rfl, if_neg (ne_of_gt hgq), if_pos hgq]
    rw [Option.map_some', hdiv]
    have h1 : PFloat.add (.num 1) .inf = .inf := rfl
    have h2 : PFloat.div (.num 100) .inf = .num 0 := rfl
    rw [h1, h2, sub_num_num]
    norm_num
  · intro prices period sl ks ds x hx
    have hK : (calculate_stochastic_rsi (calculate_rsi prices period) sl ks ds).1
        = rollingOp meanP ks (stochRsiList (calculate_rsi prices period) sl) := rfl
    rw [hK] at hx
    exact rollingMean_range 0 100 ks _
      (stochRsiList_range _ sl (calculate_rsi_num_or_nan prices period)) x hx
  · intro prices period sl ks ds x hx
    have hD : (calculate_stochastic_rsi (calculate_rsi prices period) sl ks ds).2
        = rollingOp meanP ds
            (rollingOp meanP ks (stochRsiList (calculate_rsi prices period) sl)) := rfl
    rw [hD] at hx
    exact rollingMean_range 0 100 ds _
      (rollingMean_range 0 100 ks _
        (stochRsiList_range _ sl (calculate_rsi_num_or_nan prices period))) x hx

set_option maxHeartbeats 2000000 in
/-- C4 witness: rising prices `[1, 2]` with period 1 give a zero loss-mean
with positive gain-mean and RSI 100 at index 1; prices `[1, 2, 1, 2, 1]`
with lengths 2/2 and smoothing 1/1 put the numeric value 0 on both the %K
and %D lines. -/
theorem C4_witness :
    (calculate_rsi [1, 2] 1)[1]? = some (.num 100) ∧
    ((PFloat.num 0) = .nan ∨ ∃ q, (PFloat.num 0) = .num q ∧ 0 ≤ q ∧ q ≤ 100) ∧
    ((PFloat.num 0) = .nan ∨ ∃ q, (PFloat.num 0) = .num q ∧ 0 ≤ q ∧ q ≤ 100) :=
  ⟨C4_rsi_stoch_behaviour.1 [1, 2] 1 1 1
    (by norm_num [lossMean, lossList, diffP, rollingOp, windowAt, meanP, sumP,
      PFloat.ltZero, PFloat.neg, PFloat.add, PFloat.div, List.range_succ])
    (by norm_num [gainMean, gainList, diffP, rollingOp, windowAt, meanP, sumP,
      PFloat.gtZero, PFloat.add, PFloat.div, List.range_succ])
    (by norm_num),
   C4_rsi_stoch_behaviour.2.1 [1, 2, 1, 2, 1] 2 2 1 1 (.num 0)
    (by norm_num [calculate_stochastic_rsi, stochRsiList, stochDenom,
      rsiMinList, rsiMaxList, rollingOp, windowAt, meanP, sumP, minPL,
      PFloat.min2, maxPL, PFloat.max2, calculate_rsi, gainMean, lossMean,
      gainList, lossList, diffP, PFloat.gtZero, PFloat.ltZero, PFloat.neg,
      PFloat.add, PFloat.sub, PFloat.mul, PFloat.div, List.range_succ]),
   C4_rsi_stoch_behaviour.2.2 [1, 2, 1, 2, 1] 2 2 1 1 (.num 0)
    (by norm_num [calculate_stochastic_rsi, stochRsiList, stochDenom,
      rsiMinList, rsiMaxList, rollingOp, windowAt, meanP, sumP, minPL,
      PFloat.min2, maxPL, PFloat.max2, calculate_rsi, gainMean, lossMean,
      gainList, lossList, diffP, PFloat.gtZero, PFloat.ltZero, PFloat.neg,
      PFloat.add, PFloat.sub, PFloat.mul, PFloat.div, List.range_succ])⟩

set_option maxHeartbeats 4000000 in
/-- C4 counterexample: on 15 constant candles (price 100) the loss-mean
AND the gain-mean are both zero at index 13, and the RSI there is NaN,
not 100 — no denominator is treated as 1 in the RSI — and with the
source's fixed parameters the %K and %D values at index 14 are NaN,
which is not a value within [0, 100]. -/
theorem C4_counterexample :
    (lossMean (List.replicate 15 100) 14)[13]? = some (.num 0) ∧
    (gainMean (List.replicate 15 100) 14)[13]? = some (.num 0) ∧
    (calculate_rsi (List.replicate 15 100) 14)[13]? = some .nan ∧
    (stochK (List.replicate 15 100))[14]? = some .nan ∧
    (stochD (List.replicate 15 100))[14]? = some .nan := by
  refine ⟨?_, ?_, ?_, ?_, ?_⟩ <;>
    norm_num [stochK, stochD, calculate_stochastic_rsi, stochRsiList,
      stochDenom, rsiMinList, rsiMaxList, rollingOp, windowAt, meanP, sumP,
      minPL, PFloat.min2, maxPL, PFloat.max2, calculate_rsi, gainMean,
      lossMean, gainList, lossList, diffP, PFloat.gtZero, PFloat.ltZero,
      PFloat.neg, PFloat.add, PFloat.sub, PFloat.mul, PFloat.div,
      List.replicate, List.range_succ]

end KrakenBot
